import Mathlib

/-!
Budget module: parameter validation and per-block collection.

A shallow embedding of `x/budget/types/params.go` together with the parts of the
budget module that file calls (`Budget.Validate`, `GetBudgetsBySourceMap`,
`DateRangesOverlap`, `CollectibleBudgets`) and the collector of the keeper.

Conventions.
* `sdk.Dec` is an 18-digit fixed-point decimal over a big integer; it is
  embedded as its raw integer value (an `Int`), so `OneDec = 10^18`.  `Dec.Add` is exact
  integer addition (the SDK panics above 2^315, a bound no list of validated
  rates can reach and which is not modelled).
* `time.Time` is embedded as an `Int`, a count of time units since the epoch.
* A Go `error` is an `Option Err`; `none` is `nil`.
* A Go `interface{}` argument of a parameter validator is a `Value`.
-/

set_option autoImplicit false

namespace BudgetMod

/-! ## Data model -/

/-- The decimal one, `sdk.OneDec()`. -/
def OneDec : Int := 10 ^ 18

/-- The decimal zero, `sdk.ZeroDec()`. -/
def ZeroDec : Int := 0

/-- The constant `MaxBudgetNameLength` of `params.go`. -/
def MaxBudgetNameLength : Nat := 50

/-- The constant `DefaultEpochBlocks` of `params.go`. -/
def DefaultEpochBlocks : Nat := 1

/-- The `Budget` record (fields as used by `params.go` and the keeper tests). -/
structure Budget where
  Name : String
  Rate : Int
  SourceAddress : String
  DestinationAddress : String
  StartTime : Int
  EndTime : Int
  deriving DecidableEq, Repr

/-- Error values of the module.  `InvalidParameterType` is the `fmt.Errorf`
of the validators; `ErrDuplicateBudgetName` wraps the name and
`ErrInvalidTotalBudgetRate` the source address and the offending total.
`ErrInvalidAddress` stands for the rejection of an empty or ill-formed address,
for which the spec names no error kind. -/
inductive Err where
  | InvalidParameterType
  | ErrInvalidBudgetName
  | ErrInvalidBudgetRate
  | ErrInvalidAddress
  | ErrSameSourceDestinationAddr
  | ErrInvalidStartEndTime
  | ErrDuplicateBudgetName (name : String)
  | ErrInvalidTotalBudgetRate (addr : String) (totalRate : Int)
  deriving DecidableEq, Repr

/-- The dynamic values a parameter validator can receive through `interface{}`:
a `[]Budget`, a `uint32` (the value is `n % 2^32`), or a value of another type. -/
inductive Value where
  | budgets (bs : List Budget)
  | uint32 (n : Nat)
  | other (typeName : String)
  deriving DecidableEq, Repr

/-- The `Params` of the module; `EpochBlocks` is a `uint32`. -/
structure Params where
  Budgets : List Budget
  EpochBlocks : Nat
  deriving DecidableEq, Repr

/-- The type `BudgetsBySource`: the budgets of one source address and their summed rate. -/
structure BudgetsBySource where
  Budgets : List Budget
  TotalRate : Int
  deriving DecidableEq, Repr

/-! ## Helpers of the module that `params.go` calls -/

/-- Modelled from the spec: the name rule of `Budget.Validate` (its source is not
part of the files at hand): non-empty, at most `MaxBudgetNameLength` characters,
letters, digits, `-` and `_` only. -/
def validName (name : String) : Bool :=
  decide (0 < name.length) && decide (name.length ≤ MaxBudgetNameLength) &&
    name.data.all (fun c => c.isAlphanum || c == '-' || c == '_')

/-- Modelled from the spec: `Budget.Validate`, whose source is not part of the
files at hand.  Well-formedness per the data model: valid name, rate in the
closed interval [0, 1], source and destination non-empty and well-formed
(`wf` is the host's address-format check), destination distinct from source,
`end_time > start_time`.  The spec does not fix the order of the checks; the
order of the data model's field list is used. -/
def Budget.Validate (wf : String → Bool) (b : Budget) : Option Err :=
  if !validName b.Name then some Err.ErrInvalidBudgetName
  else if b.Rate < ZeroDec ∨ b.Rate > OneDec then some Err.ErrInvalidBudgetRate
  else if b.SourceAddress = "" ∨ !wf b.SourceAddress then some Err.ErrInvalidAddress
  else if b.DestinationAddress = "" ∨ !wf b.DestinationAddress then some Err.ErrInvalidAddress
  else if b.SourceAddress = b.DestinationAddress then some Err.ErrSameSourceDestinationAddr
  else if b.EndTime ≤ b.StartTime then some Err.ErrInvalidStartEndTime
  else none

/-- Modelled from the spec: `DateRangesOverlap`, whose source is not part of the
files at hand: "two half-open intervals `[a,b)` and `[c,d)` overlap iff
`a ≤ d ∧ c ≤ b`". -/
def DateRangesOverlap (startTimeA endTimeA startTimeB endTimeB : Int) : Bool :=
  decide (startTimeA ≤ endTimeB) && decide (startTimeB ≤ endTimeA)

/-- Modelled from the spec: the keys of the map that `GetBudgetsBySourceMap`
builds: the source addresses of a budget list, each once, in order of first
occurrence. -/
def sourceKeys : List Budget → List String
  | [] => []
  | b :: bs => b.SourceAddress :: (sourceKeys bs).filter (fun a => a ≠ b.SourceAddress)

/-- The budgets of `bs` whose source address is `addr`, in input order. -/
def budgetsOfSource (addr : String) (bs : List Budget) : List Budget :=
  bs.filter (fun b => b.SourceAddress = addr)

/-- Sum of the rates of a list of budgets. -/
def sumRates (bs : List Budget) : Int :=
  (bs.map (fun b => b.Rate)).sum

/-- Modelled from the spec: `GetBudgetsBySourceMap`, whose source is not part of
the files at hand: "budgets are grouped by `source_address` into a SourceGroup
carrying its member budgets and their summed rate".  The Go map is embedded as
an association list with one entry per source address. -/
def GetBudgetsBySourceMap (budgets : List Budget) : List (String × BudgetsBySource) :=
  (sourceKeys budgets).map (fun addr =>
    (addr, { Budgets := budgetsOfSource addr budgets,
             TotalRate := sumRates (budgetsOfSource addr budgets) }))

/-- Order in which a Go `range` visits the entries of a map.  The language leaves
the order unspecified, so it is an input of the embedding: the seed picks, at
each step, which of the remaining entries comes next (the list is rotated by the
seed's next number and its head is visited).  Every visiting order arises from
some seed; with the empty seed the entries are visited as stored. -/
def mapRange {α : Type} : List Nat → List α → List α
  | [], l => l
  | k :: ks, l =>
    match l.rotate k with
    | [] => []
    | x :: rest => x :: mapRange ks rest

/-! ## `params.go` -/

/-- First loop of `ValidateBudgets` (lines 77-87): `names` is the set of names
recorded so far. -/
def validateNames (wf : String → Bool) : List String → List Budget → Option Err
  | _, [] => none
  | names, budget :: rest =>
    match budget.Validate wf with
    | some err => some err
    | none =>
      if budget.Name ∈ names then some (Err.ErrDuplicateBudgetName budget.Name)
      else validateNames wf (budget.Name :: names) rest

/-- Innermost loop of `ValidateBudgets` (lines 94-99): the rates of the budgets of
the group whose date range overlaps that of `budget`, accumulated from zero. -/
def overlapTotalRate (budget : Budget) (group : List Budget) : Int :=
  group.foldl (fun totalRate budgetToCheck =>
    if DateRangesOverlap budget.StartTime budget.EndTime
        budgetToCheck.StartTime budgetToCheck.EndTime
    then totalRate + budgetToCheck.Rate else totalRate) ZeroDec

/-- Loop over the budgets of one group (lines 93-105); `todo` is the part of the
group still to visit. -/
def checkOverlaps (addr : String) (group : List Budget) : List Budget → Option Err
  | [] => none
  | budget :: todo =>
    if overlapTotalRate budget group > OneDec then
      some (Err.ErrInvalidTotalBudgetRate addr (overlapTotalRate budget group))
    else checkOverlaps addr group todo

/-- Loop over the source groups (lines 89-108), in the order given. -/
def checkSources : List (String × BudgetsBySource) → Option Err
  | [] => none
  | (addr, budgetsBySource) :: rest =>
    if budgetsBySource.TotalRate > OneDec then
      match checkOverlaps addr budgetsBySource.Budgets budgetsBySource.Budgets with
      | some err => some err
      | none => checkSources rest
    else checkSources rest

/-- Function `ValidateBudgets` (lines 72-110).  `seed` fixes the order in which the Go map
`budgetsBySourceMap` is ranged over. -/
def ValidateBudgets (wf : String → Bool) (seed : List Nat) : Value → Option Err
  | Value.budgets budgets =>
    match validateNames wf [] budgets with
    | some err => some err
    | none => checkSources (mapRange seed (GetBudgetsBySourceMap budgets))
  | _ => some Err.InvalidParameterType

/-- Function `ValidateEpochBlocks` (lines 113-119). -/
def ValidateEpochBlocks : Value → Option Err
  | Value.uint32 _ => none
  | _ => some Err.InvalidParameterType

/-- Method `Params.Validate` (lines 56-68): the validator table holds the single pair
`{p.Budgets, ValidateBudgets}`. -/
def Params.Validate (wf : String → Bool) (seed : List Nat) (p : Params) : Option Err :=
  match ValidateBudgets wf seed (Value.budgets p.Budgets) with
  | some err => some err
  | none => none

/-- Function `DefaultParams` (lines 34-39). -/
def DefaultParams : Params :=
  { Budgets := [], EpochBlocks := DefaultEpochBlocks }

/-! ## Collection-set selector, coin arithmetic, bank, counter store, collector

The keeper's source is not part of the files at hand (only its tests are); the
definitions of this section follow the spec, sections 4.1 and 4.3 to 4.5. -/

/-- Modelled from the spec: `CollectibleBudgets`, whose source is not part of the
files at hand: "returns the subset of `bs` active at `t` (start_time ≤ t <
end_time). Iteration order is the input order".  The budgets are scanned in input
order and each active one is appended to the result. -/
def CollectibleBudgets (budgets : List Budget) (blockTime : Int) : List Budget :=
  budgets.foldl (fun collectible budget =>
    if budget.StartTime ≤ blockTime ∧ blockTime < budget.EndTime
    then collectible ++ [budget] else collectible) []

/-- Modelled from the spec: Coins (glossary), "a multi-asset bag mapping
denomination identifiers to non-negative integer amounts", as a list of
`(denomination, amount)` entries.  The order of the entries carries no meaning. -/
abbrev Coins := List (String × Nat)

/-- Modelled from the spec: decimal coins, entries whose amount is the raw value
of an `sdk.Dec`. -/
abbrev DecCoins := List (String × Int)

/-- Modelled from the spec: the amount of a denomination in a bag (zero when the
bag has no such entry). -/
def amountOf : Coins → String → Nat
  | [], _ => 0
  | (d, n) :: rest, denom => if d = denom then n else amountOf rest denom

/-- Modelled from the spec: one coin added to a bag: the entry of its
denomination is increased, or the coin is appended when the bag has no such
entry. -/
def addCoin : Coins → String × Nat → Coins
  | [], c => [c]
  | (d, n) :: rest, c => if d = c.1 then (d, n + c.2) :: rest else (d, n) :: addCoin rest c

/-- Modelled from the spec: the sum of two bags, the `+` of `Get(name) + Coins`. -/
def addCoins (a b : Coins) : Coins :=
  b.foldl addCoin a

/-- Modelled from the spec: `sdk.NewDecCoinsFromCoins` of the share computation
(section 4.1; the keeper test `TestTotalCollectedCoins` spells the pipeline out):
each integer amount as an 18-digit decimal. -/
def NewDecCoinsFromCoins (coins : Coins) : DecCoins :=
  coins.map (fun c => (c.1, (c.2 : Int) * OneDec))

/-- Modelled from the spec: `DecCoins.MulDec`, the fixed-precision product of each
amount with the rate; zero products are dropped.  The operands here are an
integer amount and an 18-digit rate, so the product has at most 18 fractional
digits and the quotient by `OneDec` is exact: no rounding rule is involved. -/
def MulDec (coins : DecCoins) (rate : Int) : DecCoins :=
  coins.filterMap (fun c =>
    if c.2 * rate / OneDec = 0 then none else some (c.1, c.2 * rate / OneDec))

/-- Modelled from the spec: `DecCoins.TruncateDecimal`, truncation of each amount
to integer units; entries truncated to zero are dropped. -/
def TruncateDecimal (coins : DecCoins) : Coins :=
  coins.filterMap (fun c =>
    if (c.2 / OneDec).toNat = 0 then none else some (c.1, (c.2 / OneDec).toNat))

/-- Modelled from the spec: the share computation of section 4.1, "decimal coins
of `B` multiplied by `r`, then truncated". -/
def shareOf (balance : Coins) (rate : Int) : Coins :=
  TruncateDecimal (MulDec (NewDecCoinsFromCoins balance) rate)

/-- Modelled from the spec: the bank collaborator of section 6, as a ledger:
the denominations it knows and the balance of each address in each of them. -/
structure Bank where
  denoms : List String
  balance : String → String → Nat

/-- Modelled from the spec: `GetAllBalances(addr) → Coins`, the non-zero balances
of an address. -/
def Bank.GetAllBalances (bank : Bank) (addr : String) : Coins :=
  bank.denoms.filterMap (fun d =>
    if bank.balance addr d = 0 then none else some (d, bank.balance addr d))

/-- Modelled from the spec: the error of a transfer that asks for more than the
sender holds. -/
inductive BankErr where
  | ErrInsufficientFunds
  deriving DecidableEq, Repr

/-- Modelled from the spec: the ledger after `amt` has been taken from `addr`. -/
def Bank.debit (bank : Bank) (addr : String) (amt : Coins) : Bank :=
  { bank with
    balance := fun a d => if a = addr then bank.balance a d - amountOf amt d else bank.balance a d }

/-- Modelled from the spec: the ledger after `amt` has been given to `addr`. -/
def Bank.credit (bank : Bank) (addr : String) (amt : Coins) : Bank :=
  { bank with
    balance := fun a d => if a = addr then bank.balance a d + amountOf amt d else bank.balance a d }

/-- Modelled from the spec: `SendCoins(from, to, coins) → error`: fails when the
sender holds less than the amount of some coin; otherwise the amounts are
subtracted from the sender and then added to the recipient. -/
def Bank.SendCoins (bank : Bank) (fromAddr toAddr : String) (amt : Coins) :
    Except BankErr Bank :=
  if amt.all (fun c => decide (amountOf amt c.1 ≤ bank.balance fromAddr c.1)) then
    Except.ok ((bank.debit fromAddr amt).credit toAddr amt)
  else Except.error BankErr.ErrInsufficientFunds

/-- Modelled from the spec: the state of the module and of its collaborators
(sections 3 and 4.5): the stored parameters, the bank and the cumulative counter
of each budget name (`none` is an absent counter). -/
structure State where
  params : Params
  bank : Bank
  totalCollected : String → Option Coins

/-- Modelled from the spec: `GetTotalCollectedCoins(name)`; absent for unknown
names. -/
def State.GetTotalCollectedCoins (st : State) (name : String) : Option Coins :=
  st.totalCollected name

/-- Modelled from the spec: `SetTotalCollectedCoins(name, Coins)`; overwrites. -/
def State.SetTotalCollectedCoins (st : State) (name : String) (coins : Coins) : State :=
  { st with totalCollected := fun n => if n = name then some coins else st.totalCollected n }

/-- Modelled from the spec: `AddTotalCollectedCoins(name, Coins)`, "equivalent to
`Set(name, Get(name) + Coins)`", an absent counter read as empty. -/
def State.AddTotalCollectedCoins (st : State) (name : String) (coins : Coins) : State :=
  st.SetTotalCollectedCoins name (addCoins ((st.GetTotalCollectedCoins name).getD []) coins)

/-- Modelled from the spec: the state after a successful delivery of `share` for
`budget`: the share has moved from the source to the destination and has been
added to the counter of the budget. -/
def State.delivered (st : State) (source : String) (budget : Budget) (share : Coins) : State :=
  State.AddTotalCollectedCoins
    { st with bank := (st.bank.debit source share).credit budget.DestinationAddress share }
    budget.Name share

/-- Modelled from the spec: step 5b of the collector for the budgets of one source
(section 4.4): for each budget in order, the share of the snapshot `bal` is
computed; a share that is empty is dropped; otherwise it is transferred to the
destination (a transfer error aborts) and added to the counter of the budget. -/
def collectGroup (bal : Coins) (source : String) : List Budget → State → Except BankErr State
  | [], st => Except.ok st
  | budget :: rest, st =>
    if shareOf bal budget.Rate = [] then collectGroup bal source rest st
    else
      match st.bank.SendCoins source budget.DestinationAddress (shareOf bal budget.Rate) with
      | Except.error err => Except.error err
      | Except.ok bank =>
        collectGroup bal source rest
          (State.AddTotalCollectedCoins { st with bank := bank } budget.Name
            (shareOf bal budget.Rate))

/-- Modelled from the spec: step 5 of the collector: for each source in order, the
balance is read once and the budgets of the source are served from that
snapshot. -/
def collectSources : List (String × BudgetsBySource) → State → Except BankErr State
  | [], st => Except.ok st
  | (source, budgetsBySource) :: rest, st =>
    match collectGroup (st.bank.GetAllBalances source) source budgetsBySource.Budgets st with
    | Except.error err => Except.error err
    | Except.ok st1 => collectSources rest st1

/-- Modelled from the spec: `CollectBudgets(ctx)` of the keeper (section 4.4), whose
source is not part of the files at hand.  Step 1: nothing happens when
`epoch_blocks` is zero.  Step 2: the cadence gate, nothing happens when the
height is not a multiple of `epoch_blocks`.  Step 3: the active budgets.  Steps 4
and 5: they are partitioned by source in input order and collected. -/
def CollectBudgets (st : State) (blockTime blockHeight : Int) : Except BankErr State :=
  if st.params.EpochBlocks = 0 then Except.ok st
  else if blockHeight % (st.params.EpochBlocks : Int) ≠ 0 then Except.ok st
  else if CollectibleBudgets st.params.Budgets blockTime = [] then Except.ok st
  else collectSources (GetBudgetsBySourceMap (CollectibleBudgets st.params.Budgets blockTime)) st

/-! ## Specification vocabulary -/

/-- A budget is active at `t` iff `start_time ≤ t < end_time`. -/
def Budget.activeAt (t : Int) (b : Budget) : Bool :=
  decide (b.StartTime ≤ t) && decide (t < b.EndTime)

/-- Sum of the rates of the budgets of `bs` with source `s` that are active at `t`. -/
def activeRate (bs : List Budget) (s : String) (t : Int) : Int :=
  sumRates ((budgetsOfSource s bs).filter (Budget.activeAt t))

/-- Sum of the rates of the budgets of `bs` with the source of `b` whose date
range overlaps the date range of `b`. -/
def overlapRate (bs : List Budget) (b : Budget) : Int :=
  sumRates ((budgetsOfSource b.SourceAddress bs).filter (fun c =>
    DateRangesOverlap b.StartTime b.EndTime c.StartTime c.EndTime))

/-- The amount `floor(r · n)` of `n` integer units at rate `r` (raw decimal). -/
def shareAmount (n : Nat) (r : Int) : Nat :=
  ((n : Int) * r / OneDec).toNat

/-- Four budgets in the shape of the keeper test "disabled budget epoch with
budgets": three of them active at time 50, one expired. -/
def suiteBudgets : List Budget :=
  [ { Name := "budget1", Rate := 500000000000000000, SourceAddress := "source0",
      DestinationAddress := "destination0", StartTime := 0, EndTime := 100 },
    { Name := "budget2", Rate := 500000000000000000, SourceAddress := "source0",
      DestinationAddress := "destination1", StartTime := 0, EndTime := 100 },
    { Name := "budget3", Rate := 1000000000000000000, SourceAddress := "source1",
      DestinationAddress := "destination2", StartTime := 0, EndTime := 100 },
    { Name := "budget4", Rate := 1000000000000000000, SourceAddress := "source2",
      DestinationAddress := "destination3", StartTime := 0, EndTime := 10 } ]

/-- A bank in which every source of `suiteBudgets` holds `10^9` of each of four
denominations and every other address holds nothing. -/
def suiteBank : Bank :=
  { denoms := ["denom1", "denom2", "denom3", "stake"],
    balance := fun a _ =>
      if a = "source0" ∨ a = "source1" ∨ a = "source2" then 1000000000 else 0 }

/-- A state with `suiteBudgets`, the given epoch length, and no counter written. -/
def suiteState (epochBlocks : Nat) : State :=
  { params := { Budgets := suiteBudgets, EpochBlocks := epochBlocks },
    bank := suiteBank,
    totalCollected := fun _ => none }

/-- Balances of an address after a run of the collector (`none` when the run
failed). -/
def balancesAfter (r : Except BankErr State) (addr : String) : Option Coins :=
  match r with
  | Except.ok st => some (st.bank.GetAllBalances addr)
  | Except.error _ => none

/-- A state in which two budgets of 50% each, active on [0, 100), lead from the
one source `S` to the one destination `D`; `S` holds 10 stake. -/
def sharedDestinationState : State :=
  { params :=
      { Budgets :=
          [ { Name := "budget1", Rate := 500000000000000000, SourceAddress := "S",
              DestinationAddress := "D", StartTime := 0, EndTime := 100 },
            { Name := "budget2", Rate := 500000000000000000, SourceAddress := "S",
              DestinationAddress := "D", StartTime := 0, EndTime := 100 } ],
        EpochBlocks := 1 },
    bank := { denoms := ["stake"], balance := fun a _ => if a = "S" then 10 else 0 },
    totalCollected := fun _ => none }

/-- A state in which a budget of 100% leads from `S` to `D` and another of 100%
from `D` to `E`, both active on [0, 100); `S` holds 10 stake and `D` holds 4. -/
def chainedState : State :=
  { params :=
      { Budgets :=
          [ { Name := "budget1", Rate := 1000000000000000000, SourceAddress := "S",
              DestinationAddress := "D", StartTime := 0, EndTime := 100 },
            { Name := "budget2", Rate := 1000000000000000000, SourceAddress := "D",
              DestinationAddress := "E", StartTime := 0, EndTime := 100 } ],
        EpochBlocks := 1 },
    bank :=
      { denoms := ["stake"],
        balance := fun a _ => if a = "S" then 10 else if a = "D" then 4 else 0 },
    totalCollected := fun _ => none }

/-- The three budgets of the keeper test "add budget 3 with invalid total rate
case 1", times in Unix seconds. -/
def farmingBudgets123 : List Budget :=
  [ { Name := "gravity-dex-farming-1", Rate := 500000000000000000,
      SourceAddress := "cosmos10wy60v3zuks7rkwnqxs3e878zqfhus6m98l77q6rppz40kxwgllsruc0az",
      DestinationAddress := "cosmos1qceyjmnrl6hapntjq3z25vn38nh68u7yxvufs2thptxvqm7huxeqj7zyrq",
      StartTime := 1630454400, EndTime := 1948492800 },
    { Name := "gravity-dex-farming-2", Rate := 500000000000000000,
      SourceAddress := "cosmos10wy60v3zuks7rkwnqxs3e878zqfhus6m98l77q6rppz40kxwgllsruc0az",
      DestinationAddress := "cosmos1czyx0dj2yd26gv3stpxzv23ddy8pld4j6p90a683mdcg8vzy72jqa8tm6p",
      StartTime := 1630454400, EndTime := 1632960000 },
    { Name := "gravity-dex-farming-3", Rate := 500000000000000000,
      SourceAddress := "cosmos10wy60v3zuks7rkwnqxs3e878zqfhus6m98l77q6rppz40kxwgllsruc0az",
      DestinationAddress := "cosmos1e0n8jmeg4u8q3es2tmhz5zlte8a4q8687ndns8pj4q8grdl74a0sw3045s",
      StartTime := 1632960000, EndTime := 1633824000 } ]

/-- An address-format check that accepts every string. -/
def anyAddress : String → Bool := fun _ => true

/-- A source group passes the rate check: its total is at most one, or every
budget of the group has an overlapping total of at most one. -/
def groupOk (p : String × BudgetsBySource) : Prop :=
  p.2.TotalRate > OneDec → ∀ b ∈ p.2.Budgets, overlapTotalRate b p.2.Budgets ≤ OneDec

/-- The rate condition that `ValidateBudgets` enforces: every budget whose source
group has a total rate above one has an overlapping total of at most one. -/
def windowRatesOk (bs : List Budget) : Prop :=
  ∀ b ∈ bs, OneDec < sumRates (budgetsOfSource b.SourceAddress bs) → overlapRate bs b ≤ OneDec

/-- The two budgets of the keeper test "add budget 2". -/
def farmingBudgets12 : List Budget := farmingBudgets123.take 2

/-- The two budgets of the keeper test "add budget 4 without date range overlap":
rates 0.5 and 1.0 on one source, the first ending 2031-09-30T00:00:00Z and the
second starting 2031-09-30T00:00:01Z. -/
def farmingBudgets14 : List Budget :=
  [ { Name := "gravity-dex-farming-1", Rate := 500000000000000000,
      SourceAddress := "cosmos10wy60v3zuks7rkwnqxs3e878zqfhus6m98l77q6rppz40kxwgllsruc0az",
      DestinationAddress := "cosmos1qceyjmnrl6hapntjq3z25vn38nh68u7yxvufs2thptxvqm7huxeqj7zyrq",
      StartTime := 1630454400, EndTime := 1948492800 },
    { Name := "gravity-dex-farming-4", Rate := 1000000000000000000,
      SourceAddress := "cosmos10wy60v3zuks7rkwnqxs3e878zqfhus6m98l77q6rppz40kxwgllsruc0az",
      DestinationAddress := "cosmos1e0n8jmeg4u8q3es2tmhz5zlte8a4q8687ndns8pj4q8grdl74a0sw3045s",
      StartTime := 1948492801, EndTime := 1954627200 } ]

/-- The source address of the keeper test `TestBudgetChangeSituation`. -/
def inflationPool : String :=
  "cosmos10wy60v3zuks7rkwnqxs3e878zqfhus6m98l77q6rppz40kxwgllsruc0az"

/-! ## Definitions for the claims on variants, edits and counters -/

/-- The loop over the source groups with the guard `TotalRate > 1` dropped: the
overlap scan runs on every group (the one-phase variant that the two-phase check
is compared with). -/
def checkSourcesOnePhase : List (String × BudgetsBySource) → Option Err
  | [] => none
  | (addr, budgetsBySource) :: rest =>
    match checkOverlaps addr budgetsBySource.Budgets budgetsBySource.Budgets with
    | some err => some err
    | none => checkSourcesOnePhase rest

/-- The one-phase variant of `ValidateBudgets`: the same function with the guard
`TotalRate > 1` dropped. -/
def ValidateBudgetsOnePhase (wf : String → Bool) (seed : List Nat) : Value → Option Err
  | Value.budgets budgets =>
    match validateNames wf [] budgets with
    | some err => some err
    | none => checkSourcesOnePhase (mapRange seed (GetBudgetsBySourceMap budgets))
  | _ => some Err.InvalidParameterType

/-- Two sources, each with two budgets of 100% on the same date range: both source
groups fail the rate check. -/
def twoOverloadedSources : List Budget :=
  [ { Name := "a1", Rate := 1000000000000000000, SourceAddress := "sourceA",
      DestinationAddress := "destination0", StartTime := 0, EndTime := 100 },
    { Name := "a2", Rate := 1000000000000000000, SourceAddress := "sourceA",
      DestinationAddress := "destination1", StartTime := 0, EndTime := 100 },
    { Name := "b1", Rate := 1000000000000000000, SourceAddress := "sourceB",
      DestinationAddress := "destination0", StartTime := 0, EndTime := 100 },
    { Name := "b2", Rate := 1000000000000000000, SourceAddress := "sourceB",
      DestinationAddress := "destination1", StartTime := 0, EndTime := 100 } ]

/-- The key `KeyBudgets` of `params.go` (line 22). -/
def KeyBudgets : String := "Budgets"

/-- The key `KeyEpochBlocks` of `params.go` (line 23). -/
def KeyEpochBlocks : String := "EpochBlocks"

/-- One entry of `ParamSetPairs`: the key, the field of the parameters the pair
points to (as the assignment of a value through that pointer) and the validator
of the values proposed for it. -/
structure ParamSetPair where
  key : String
  assign : Params → Value → Params
  validator : Value → Option Err

/-- Assignment through the pointer `&p.Budgets`. -/
def assignBudgets (p : Params) : Value → Params
  | Value.budgets bs => { p with Budgets := bs }
  | _ => p

/-- Assignment through the pointer `&p.EpochBlocks` (a `uint32`). -/
def assignEpochBlocks (p : Params) : Value → Params
  | Value.uint32 n => { p with EpochBlocks := n % 2 ^ 32 }
  | _ => p

/-- Method `Params.ParamSetPairs` (lines 42-47): the pair of `KeyBudgets` with
`ValidateBudgets` and the pair of `KeyEpochBlocks` with `ValidateEpochBlocks`. -/
def Params.ParamSetPairs (wf : String → Bool) (seed : List Nat) : List ParamSetPair :=
  [ ParamSetPair.mk KeyBudgets assignBudgets (ValidateBudgets wf seed),
    ParamSetPair.mk KeyEpochBlocks assignEpochBlocks ValidateEpochBlocks ]

/-- Modelled from the spec: the ways a governance edit fails: the key names no
parameter of the module, or the validator of the parameter returned an error. -/
inductive EditErr where
  | UnknownParameter (key : String)
  | ValidationFailed (err : Err)
  deriving DecidableEq, Repr

/-- Modelled from the spec: the governance parameter-change entrypoint of the
host (sections 6 and 7), which is not code of the module: the proposed value is
passed through the validator registered for the key in `ParamSetPairs`; "validation
errors fail the governance edit; the existing `Params` remains in force", and "the
store is mutated only on acceptance".  The result is the outcome of the edit and
the state after it. -/
def GovernanceEdit (wf : String → Bool) (seed : List Nat) (st : State) (key : String)
    (value : Value) : Option EditErr × State :=
  match (Params.ParamSetPairs wf seed).find? (fun pair => pair.key = key) with
  | none => (some (EditErr.UnknownParameter key), st)
  | some pair =>
    match pair.validator value with
    | some err => (some (EditErr.ValidationFailed err), st)
    | none => (none, { st with params := pair.assign st.params value })

/-- A write to the counter store: a `Set` or an `Add` on a name. -/
inductive CounterWrite where
  | set (name : String) (coins : Coins)
  | add (name : String) (coins : Coins)
  deriving DecidableEq, Repr

/-- The name a write is made on. -/
def CounterWrite.name : CounterWrite → String
  | CounterWrite.set n _ => n
  | CounterWrite.add n _ => n

/-- The state after one write to the counter store. -/
def State.write (st : State) : CounterWrite → State
  | CounterWrite.set n c => st.SetTotalCollectedCoins n c
  | CounterWrite.add n c => st.AddTotalCollectedCoins n c

/-- The state after a sequence of writes to the counter store. -/
def State.writeAll (st : State) (ws : List CounterWrite) : State :=
  ws.foldl State.write st

/-- The deliveries made while the budgets of one source are served from the
snapshot `bal`: the name of the budget and its share, for each share that is not
dropped, in order. -/
def groupDeliveries (bal : Coins) : List Budget → List (String × Coins)
  | [] => []
  | budget :: rest =>
    if shareOf bal budget.Rate = [] then groupDeliveries bal rest
    else (budget.Name, shareOf bal budget.Rate) :: groupDeliveries bal rest

/-- The deliveries made by `collectSources`: those of the first source, served
from the balance read at that moment, followed by those of the other sources in
the state the first group leaves. -/
def sourcesDeliveries : List (String × BudgetsBySource) → State → List (String × Coins)
  | [], _ => []
  | (source, budgetsBySource) :: rest, st =>
    groupDeliveries (st.bank.GetAllBalances source) budgetsBySource.Budgets ++
      (match collectGroup (st.bank.GetAllBalances source) source budgetsBySource.Budgets st with
       | Except.error _ => []
       | Except.ok st1 => sourcesDeliveries rest st1)

/-- The deliveries made by `CollectBudgets` in one block: none when the collector
is disabled or the block is off the cadence. -/
def deliveries (st : State) (blockTime blockHeight : Int) : List (String × Coins) :=
  if st.params.EpochBlocks = 0 then []
  else if blockHeight % (st.params.EpochBlocks : Int) ≠ 0 then []
  else sourcesDeliveries (GetBudgetsBySourceMap (CollectibleBudgets st.params.Budgets blockTime)) st

/-- The shares delivered under the name `n`, in order. -/
def deliveredUnder (n : String) (log : List (String × Coins)) : List Coins :=
  (log.filter (fun e => e.1 = n)).map Prod.snd

/-- A counter plus a sequence of delivered shares: each share is added in turn,
an absent counter read as empty. -/
def addShares (counter : Option Coins) (shares : List Coins) : Option Coins :=
  shares.foldl (fun c share => some (addCoins (c.getD []) share)) counter

/-- The state of the keeper test `TestTotalCollectedCoins`: a single budget of 5%
from `source0`, active from 0000-01-01 to 9999-12-31 (Unix seconds); the source
holds `10^9` of each asset; no counter is written. -/
def fivePercentState : State :=
  { params :=
      { Budgets :=
          [ { Name := "budget1", Rate := 50000000000000000, SourceAddress := "source0",
              DestinationAddress := "destination0", StartTime := -62167219200,
              EndTime := 253402214400 } ],
        EpochBlocks := 1 },
    bank := suiteBank,
    totalCollected := fun _ => none }

/-- The counter of a name after a run of the collector (`none` when the run
failed, `some none` when the counter is absent). -/
def counterAfter (r : Except BankErr State) (name : String) : Option (Option Coins) :=
  match r with
  | Except.ok st => some (st.totalCollected name)
  | Except.error _ => none

/-! ## Lemmas on the validation loops -/

theorem mapRange_perm {α : Type} (seed : List Nat) (l : List α) :
    (mapRange seed l).Perm l := by
  induction seed generalizing l with
  | nil => simp [mapRange]
  | cons k ks ih =>
    have hr := List.rotate_perm l k
    simp only [mapRange]
    cases h : l.rotate k with
    | nil => rw [h] at hr; simpa using hr
    | cons x rest =>
      rw [h] at hr
      exact ((ih rest).cons x).trans hr

theorem exists_rotate_head {α : Type} (l : List α) (x : α) (hx : x ∈ l) :
    ∃ k rest, l.rotate k = x :: rest := by
  obtain ⟨a, b, rfl⟩ := List.append_of_mem hx
  exact ⟨a.length, b ++ a, List.rotate_append_length_eq a (x :: b)⟩

/-- Every visiting order of a map arises from some seed. -/
theorem mapRange_surjective {α : Type} (l order : List α) (h : order.Perm l) :
    ∃ seed, mapRange seed l = order := by
  induction order generalizing l with
  | nil =>
    have hl : l = [] := h.symm.eq_nil
    exact ⟨[], by rw [hl]; rfl⟩
  | cons x t ih =>
    have hx : x ∈ l := h.subset (List.mem_cons_self _ _)
    obtain ⟨k, rest, hk⟩ := exists_rotate_head l x hx
    have hr := List.rotate_perm l k
    rw [hk] at hr
    obtain ⟨seed, hs⟩ := ih rest (List.Perm.cons_inv (h.trans hr.symm))
    refine ⟨k :: seed, ?_⟩
    simp only [mapRange, hk, hs]

theorem validateNames_eq_none_iff (wf : String → Bool) (names : List String)
    (bs : List Budget) :
    validateNames wf names bs = none ↔
      (∀ b ∈ bs, b.Validate wf = none) ∧ (∀ b ∈ bs, b.Name ∉ names) ∧
        (bs.map (fun b => b.Name)).Nodup := by
  induction bs generalizing names with
  | nil => simp [validateNames]
  | cons b rest ih =>
    simp only [validateNames]
    cases hv : b.Validate wf with
    | some e => simp [hv]
    | none =>
      by_cases hn : b.Name ∈ names
      · simp [hn]
      · simp only [hn, if_false, ih, List.mem_cons, forall_eq_or_imp, hv, true_and,
          List.map_cons, List.nodup_cons, List.mem_map, not_exists, not_and, not_false_eq_true,
          not_or]
        constructor
        · rintro ⟨h1, h2, h3⟩
          exact ⟨h1, fun c hc => (h2 c hc).2, ⟨fun c hc h => (h2 c hc).1 h, h3⟩⟩
        · rintro ⟨h1, h2, h3, h4⟩
          exact ⟨h1, fun c hc => ⟨fun h => h3 c hc h, h2 c hc⟩, h4⟩

theorem overlapTotalRate_foldl (budget : Budget) (group : List Budget) (init : Int) :
    group.foldl (fun totalRate budgetToCheck =>
      if DateRangesOverlap budget.StartTime budget.EndTime
          budgetToCheck.StartTime budgetToCheck.EndTime
      then totalRate + budgetToCheck.Rate else totalRate) init =
    init + sumRates (group.filter (fun c =>
      DateRangesOverlap budget.StartTime budget.EndTime c.StartTime c.EndTime)) := by
  induction group generalizing init with
  | nil => simp [sumRates]
  | cons c rest ih =>
    simp only [List.foldl_cons, ih, List.filter_cons]
    by_cases h : DateRangesOverlap budget.StartTime budget.EndTime c.StartTime c.EndTime
    · simp [h, sumRates]; ring
    · simp [h]

theorem overlapTotalRate_eq (budget : Budget) (group : List Budget) :
    overlapTotalRate budget group = sumRates (group.filter (fun c =>
      DateRangesOverlap budget.StartTime budget.EndTime c.StartTime c.EndTime)) := by
  unfold overlapTotalRate
  rw [overlapTotalRate_foldl]
  simp [ZeroDec]

theorem checkOverlaps_eq_none_iff (addr : String) (group todo : List Budget) :
    checkOverlaps addr group todo = none ↔
      ∀ b ∈ todo, overlapTotalRate b group ≤ OneDec := by
  induction todo with
  | nil => simp [checkOverlaps]
  | cons b rest ih =>
    simp only [checkOverlaps, List.mem_cons, forall_eq_or_imp]
    by_cases h : overlapTotalRate b group > OneDec
    · simp [h]
    · simp only [h, if_false, ih]
      have : overlapTotalRate b group ≤ OneDec := not_lt.mp h
      simp [this]

theorem checkOverlaps_eq_some (addr : String) (group todo : List Budget) (e : Err)
    (h : checkOverlaps addr group todo = some e) :
    ∃ b ∈ todo, OneDec < overlapTotalRate b group ∧
      e = Err.ErrInvalidTotalBudgetRate addr (overlapTotalRate b group) := by
  induction todo with
  | nil => simp [checkOverlaps] at h
  | cons b rest ih =>
    simp only [checkOverlaps] at h
    by_cases hb : overlapTotalRate b group > OneDec
    · simp only [hb, if_true, Option.some.injEq] at h
      exact ⟨b, List.mem_cons_self _ _, hb, h.symm⟩
    · simp only [hb, if_false] at h
      obtain ⟨c, hc, h1, h2⟩ := ih h
      exact ⟨c, List.mem_cons_of_mem _ hc, h1, h2⟩

theorem checkSources_eq_none_iff (gs : List (String × BudgetsBySource)) :
    checkSources gs = none ↔ ∀ p ∈ gs, groupOk p := by
  induction gs with
  | nil => simp [checkSources]
  | cons p rest ih =>
    obtain ⟨addr, g⟩ := p
    simp only [checkSources, List.mem_cons, forall_eq_or_imp, groupOk]
    by_cases h : g.TotalRate > OneDec
    · simp only [h, if_true, forall_true_left]
      cases hc : checkOverlaps addr g.Budgets g.Budgets with
      | some e =>
        simp only [false_iff, not_and, reduceCtorEq]
        intro h1
        rw [← checkOverlaps_eq_none_iff addr] at h1
        simp [hc] at h1
      | none =>
        rw [checkOverlaps_eq_none_iff] at hc
        simp only [ih, groupOk]
        exact ⟨fun h2 => ⟨hc, h2⟩, fun h2 => h2.2⟩
    · simp only [h, if_false, ih, groupOk, false_implies, true_and]

theorem checkSources_eq_some (gs : List (String × BudgetsBySource)) (e : Err)
    (h : checkSources gs = some e) :
    ∃ p ∈ gs, OneDec < p.2.TotalRate ∧ ∃ b ∈ p.2.Budgets,
      OneDec < overlapTotalRate b p.2.Budgets ∧
      e = Err.ErrInvalidTotalBudgetRate p.1 (overlapTotalRate b p.2.Budgets) := by
  induction gs with
  | nil => simp [checkSources] at h
  | cons p rest ih =>
    obtain ⟨addr, g⟩ := p
    simp only [checkSources] at h
    by_cases hg : g.TotalRate > OneDec
    · simp only [hg, if_true] at h
      cases hc : checkOverlaps addr g.Budgets g.Budgets with
      | some e2 =>
        rw [hc] at h
        simp only [Option.some.injEq] at h
        subst h
        obtain ⟨b, hb, h1, h2⟩ := checkOverlaps_eq_some _ _ _ _ hc
        exact ⟨(addr, g), List.mem_cons_self _ _, hg, b, hb, h1, h2⟩
      | none =>
        rw [hc] at h
        obtain ⟨p, hp, h1⟩ := ih h
        exact ⟨p, List.mem_cons_of_mem _ hp, h1⟩
    · simp only [hg, if_false] at h
      obtain ⟨p, hp, h1⟩ := ih h
      exact ⟨p, List.mem_cons_of_mem _ hp, h1⟩

theorem mem_sourceKeys (bs : List Budget) (a : String) :
    a ∈ sourceKeys bs ↔ ∃ b ∈ bs, b.SourceAddress = a := by
  induction bs with
  | nil => simp [sourceKeys]
  | cons b rest ih =>
    simp only [sourceKeys, List.mem_cons, List.mem_filter, ih, decide_eq_true_eq,
      exists_eq_or_imp]
    constructor
    · rintro (h | ⟨h, _⟩)
      · exact Or.inl h.symm
      · exact Or.inr h
    · rintro (h | h)
      · exact Or.inl h.symm
      · by_cases hab : a = b.SourceAddress
        · exact Or.inl hab
        · exact Or.inr ⟨h, hab⟩

theorem mem_GetBudgetsBySourceMap (bs : List Budget) (p : String × BudgetsBySource) :
    p ∈ GetBudgetsBySourceMap bs ↔
      (∃ b ∈ bs, b.SourceAddress = p.1) ∧
        p.2 = { Budgets := budgetsOfSource p.1 bs,
                TotalRate := sumRates (budgetsOfSource p.1 bs) } := by
  obtain ⟨a, g⟩ := p
  simp only [GetBudgetsBySourceMap, List.mem_map, mem_sourceKeys, Prod.mk.injEq]
  constructor
  · rintro ⟨a2, h1, rfl, rfl⟩
    exact ⟨h1, rfl⟩
  · rintro ⟨h1, h2⟩
    exact ⟨a, h1, rfl, h2.symm⟩

theorem mem_budgetsOfSource (addr : String) (bs : List Budget) (b : Budget) :
    b ∈ budgetsOfSource addr bs ↔ b ∈ bs ∧ b.SourceAddress = addr := by
  simp [budgetsOfSource]

theorem checkSources_map_iff (seed : List Nat) (bs : List Budget) :
    checkSources (mapRange seed (GetBudgetsBySourceMap bs)) = none ↔ windowRatesOk bs := by
  rw [checkSources_eq_none_iff]
  constructor
  · intro h b hb hgt
    have hp := h (b.SourceAddress, BudgetsBySource.mk (budgetsOfSource b.SourceAddress bs)
        (sumRates (budgetsOfSource b.SourceAddress bs)))
      (((mapRange_perm seed _).mem_iff).2
        ((mem_GetBudgetsBySourceMap bs _).2 ⟨⟨b, hb, rfl⟩, rfl⟩))
    have := hp hgt b ((mem_budgetsOfSource _ _ _).2 ⟨hb, rfl⟩)
    rw [overlapTotalRate_eq] at this
    exact this
  · intro h p hp
    have hp2 := (mem_GetBudgetsBySourceMap bs p).1 (((mapRange_perm seed _).mem_iff).1 hp)
    obtain ⟨_, hg⟩ := hp2
    intro hgt b hb
    rw [hg] at hgt hb ⊢
    simp only at hgt hb ⊢
    obtain ⟨hb1, hb2⟩ := (mem_budgetsOfSource _ _ _).1 hb
    rw [overlapTotalRate_eq]
    have := h b hb1 (by rw [hb2]; exact hgt)
    unfold overlapRate at this
    rw [hb2] at this
    exact this

/-- Acceptance by `ValidateBudgets`, for every visiting order of the source map. -/
theorem validateBudgets_none_iff (wf : String → Bool) (seed : List Nat) (bs : List Budget) :
    ValidateBudgets wf seed (Value.budgets bs) = none ↔
      (bs.map (fun b => b.Name)).Nodup ∧ (∀ b ∈ bs, b.Validate wf = none) ∧
        windowRatesOk bs := by
  simp only [ValidateBudgets]
  cases hv : validateNames wf [] bs with
  | some e =>
    have : ¬ validateNames wf [] bs = none := by simp [hv]
    rw [validateNames_eq_none_iff] at this
    simp only [reduceCtorEq, false_iff]
    rintro ⟨h1, h2, _⟩
    exact this ⟨h2, by simp, h1⟩
  | none =>
    rw [validateNames_eq_none_iff] at hv
    simp only [checkSources_map_iff]
    exact ⟨fun h => ⟨hv.2.2, hv.1, h⟩, fun h => h.2.2⟩

theorem validate_none_bounds (wf : String → Bool) (b : Budget)
    (h : b.Validate wf = none) :
    0 ≤ b.Rate ∧ b.Rate ≤ OneDec ∧ b.StartTime < b.EndTime := by
  unfold Budget.Validate at h
  split_ifs at h with h1 h2 h3 h4 h5 h6
  simp only [ZeroDec, not_or, not_lt, not_le] at h2 h6
  exact ⟨h2.1, h2.2, h6⟩

theorem sumRates_filter_le_of_imp (l : List Budget) (p q : Budget → Bool)
    (hnn : ∀ c ∈ l, 0 ≤ c.Rate) (hpq : ∀ c ∈ l, p c = true → q c = true) :
    sumRates (l.filter p) ≤ sumRates (l.filter q) := by
  induction l with
  | nil => simp
  | cons c rest ih =>
    have ih2 := ih (fun d hd => hnn d (List.mem_cons_of_mem _ hd))
      (fun d hd => hpq d (List.mem_cons_of_mem _ hd))
    have hc := hnn c (List.mem_cons_self _ _)
    have hi := hpq c (List.mem_cons_self _ _)
    simp only [sumRates] at ih2 ⊢
    by_cases h1 : p c = true
    · rw [List.filter_cons_of_pos h1, List.filter_cons_of_pos (hi h1)]
      simp only [List.map_cons, List.sum_cons]
      omega
    · by_cases h2 : q c = true
      · rw [List.filter_cons_of_neg h1, List.filter_cons_of_pos h2]
        simp only [List.map_cons, List.sum_cons]
        omega
      · rw [List.filter_cons_of_neg h1, List.filter_cons_of_neg h2]
        exact ih2

theorem sumRates_filter_le (l : List Budget) (p : Budget → Bool)
    (hnn : ∀ c ∈ l, 0 ≤ c.Rate) : sumRates (l.filter p) ≤ sumRates l := by
  have := sumRates_filter_le_of_imp l p (fun _ => true) hnn (fun _ _ _ => rfl)
  simpa using this

theorem activeAt_overlap (t : Int) (b c : Budget)
    (hb : b.activeAt t = true) (hc : c.activeAt t = true) :
    DateRangesOverlap b.StartTime b.EndTime c.StartTime c.EndTime = true := by
  simp only [Budget.activeAt, Bool.and_eq_true, decide_eq_true_eq] at hb hc
  simp only [DateRangesOverlap, Bool.and_eq_true, decide_eq_true_eq]
  omega

/-- Soundness of the window condition: valid budgets that satisfy it never have
active rates above one at any instant. -/
theorem windowRatesOk_activeRate (wf : String → Bool) (bs : List Budget)
    (hvalid : ∀ b ∈ bs, b.Validate wf = none) (hw : windowRatesOk bs)
    (s : String) (t : Int) : activeRate bs s t ≤ OneDec := by
  have hnn : ∀ c ∈ budgetsOfSource s bs, 0 ≤ c.Rate := fun c hc =>
    (validate_none_bounds wf c (hvalid c ((mem_budgetsOfSource _ _ _).1 hc).1)).1
  unfold activeRate
  by_cases hgt : OneDec < sumRates (budgetsOfSource s bs)
  · cases hA : (budgetsOfSource s bs).filter (Budget.activeAt t) with
    | nil => simp [sumRates, OneDec]
    | cons b rest =>
      have hbA : b ∈ (budgetsOfSource s bs).filter (Budget.activeAt t) := by
        rw [hA]; exact List.mem_cons_self _ _
      obtain ⟨hbG, hbt⟩ := List.mem_filter.1 hbA
      obtain ⟨hb, hbs⟩ := (mem_budgetsOfSource _ _ _).1 hbG
      have h1 := hw b hb (by rw [hbs]; exact hgt)
      unfold overlapRate at h1
      rw [hbs] at h1
      rw [← hA]
      exact le_trans (sumRates_filter_le_of_imp _ _ _ hnn
        (fun c _ hc => activeAt_overlap t b c hbt hc)) h1
  · exact le_trans (sumRates_filter_le _ _ hnn) (not_lt.1 hgt)

theorem validateNames_some_dup (wf : String → Bool) (names : List String) (bs : List Budget)
    (e : Err) (hvalid : ∀ b ∈ bs, b.Validate wf = none)
    (h : validateNames wf names bs = some e) :
    ∃ n, e = Err.ErrDuplicateBudgetName n ∧
      (n ∈ names ∧ n ∈ bs.map (fun b => b.Name) ∨ 2 ≤ (bs.map (fun b => b.Name)).count n) := by
  induction bs generalizing names with
  | nil => simp [validateNames] at h
  | cons b rest ih =>
    have hb := hvalid b (List.mem_cons_self _ _)
    simp only [validateNames, hb] at h
    by_cases hn : b.Name ∈ names
    · simp only [hn, if_true, Option.some.injEq] at h
      exact ⟨b.Name, h.symm, Or.inl ⟨hn, by simp⟩⟩
    · simp only [hn, if_false] at h
      obtain ⟨n, he, hcase⟩ := ih (b.Name :: names)
        (fun c hc => hvalid c (List.mem_cons_of_mem _ hc)) h
      refine ⟨n, he, ?_⟩
      rcases hcase with ⟨h1, h2⟩ | h2
      · rcases List.mem_cons.1 h1 with h3 | h3
        · right
          subst h3
          have : 1 ≤ (rest.map (fun b => b.Name)).count b.Name := List.count_pos_iff.2 h2
          rw [List.map_cons, List.count_cons]
          simp only [beq_self_eq_true, if_true]
          omega
        · left
          exact ⟨h3, by simp only [List.map_cons, List.mem_cons]; exact Or.inr h2⟩
      · right
        simp only [List.map_cons, List.count_cons]
        omega

theorem overlap_symm (a b : Budget) :
    DateRangesOverlap a.StartTime a.EndTime b.StartTime b.EndTime =
      DateRangesOverlap b.StartTime b.EndTime a.StartTime a.EndTime := by
  simp only [DateRangesOverlap]
  exact Bool.and_comm _ _

/-! ## Claims -/

/-- C1 (as stated, refuted): the budgets of the keeper test "add budget 3 with
invalid total rate case 1" have distinct names, each pass `Budget.Validate`, and at
every instant the active rates of every source sum to at most one, yet
`ValidateBudgets` rejects them with `ErrInvalidTotalBudgetRate`. -/
theorem validateBudgets_instant_rates_counterexample :
    (farmingBudgets123.map (fun b => b.Name)).Nodup ∧
    (∀ b ∈ farmingBudgets123, b.Validate anyAddress = none) ∧
    (∀ s t, activeRate farmingBudgets123 s t ≤ OneDec) ∧
    ValidateBudgets anyAddress [] (Value.budgets farmingBudgets123) =
      some (Err.ErrInvalidTotalBudgetRate inflationPool 1500000000000000000) := by
  refine ⟨by decide, by decide, ?_, by decide⟩
  intro s t
  unfold activeRate
  by_cases hs : inflationPool = s
  · have hG : budgetsOfSource s farmingBudgets123 = farmingBudgets123 := by
      subst hs; decide
    rw [hG]
    simp only [farmingBudgets123, List.filter_cons, List.filter_nil, Budget.activeAt,
      sumRates, OneDec]
    split_ifs <;> simp_all
    omega
  · have hG : budgetsOfSource s farmingBudgets123 = [] := by
      simp only [inflationPool] at hs
      simp [budgetsOfSource, farmingBudgets123, List.filter_cons, hs]
    rw [hG]
    simp [sumRates, OneDec]

/-- C1 (amended): `ValidateBudgets(bs)` returns nil, whatever the visiting order of
the source map, iff the names are pairwise distinct, every budget passes
`Budget.Validate`, and for every budget `b` whose source has a total rate above
one, the rates of the budgets of that source whose date range overlaps the date
range of `b` sum to at most one. -/
theorem validateBudgets_accepts_iff (wf : String → Bool) (seed : List Nat) (bs : List Budget) :
    ValidateBudgets wf seed (Value.budgets bs) = none ↔
      (bs.map (fun b => b.Name)).Nodup ∧ (∀ b ∈ bs, b.Validate wf = none) ∧
      (∀ b ∈ bs, OneDec < sumRates (budgetsOfSource b.SourceAddress bs) →
        overlapRate bs b ≤ OneDec) :=
  validateBudgets_none_iff wf seed bs

/-- C2: if `ValidateBudgets(bs)` returns nil then for every source address `s` and
every instant `t` the rates of the budgets of `bs` with source `s` that are active
at `t` sum to at most one. -/
theorem validateBudgets_sound (wf : String → Bool) (seed : List Nat) (bs : List Budget)
    (h : ValidateBudgets wf seed (Value.budgets bs) = none) (s : String) (t : Int) :
    activeRate bs s t ≤ OneDec := by
  obtain ⟨_, hvalid, hw⟩ := (validateBudgets_none_iff wf seed bs).1 h
  exact windowRatesOk_activeRate wf bs hvalid hw s t

/-- C2 witness: the two accepted budgets of the keeper test "add budget 2", at
2021-09-03T00:00:00Z. -/
theorem validateBudgets_sound_witness :
    ValidateBudgets anyAddress [] (Value.budgets farmingBudgets12) = none ∧
    activeRate farmingBudgets12 inflationPool 1630627200 ≤ OneDec :=
  ⟨by decide, validateBudgets_sound anyAddress [] farmingBudgets12 (by decide)
    inflationPool 1630627200⟩

/-- C3: for budget lists whose budgets each pass `Budget.Validate` and whose names
are pairwise distinct, `ValidateBudgets` returns an `ErrInvalidTotalBudgetRate`
error iff some source address has a total rate above one and a budget `b` of that
source whose overlapping rates (those of the budgets of the source whose date
range overlaps that of `b`) sum to more than one; otherwise it returns nil. -/
theorem validateBudgets_total_rate_error_iff (wf : String → Bool) (seed : List Nat)
    (bs : List Budget) (hvalid : ∀ b ∈ bs, b.Validate wf = none)
    (hnames : (bs.map (fun b => b.Name)).Nodup) :
    ((∃ addr r, ValidateBudgets wf seed (Value.budgets bs) =
        some (Err.ErrInvalidTotalBudgetRate addr r)) ↔
      ∃ s, OneDec < sumRates (budgetsOfSource s bs) ∧
        ∃ b ∈ bs, b.SourceAddress = s ∧ OneDec < overlapRate bs b) ∧
    ((¬ ∃ addr r, ValidateBudgets wf seed (Value.budgets bs) =
        some (Err.ErrInvalidTotalBudgetRate addr r)) →
      ValidateBudgets wf seed (Value.budgets bs) = none) := by
  have hvn : validateNames wf [] bs = none :=
    (validateNames_eq_none_iff wf [] bs).2 ⟨hvalid, by simp, hnames⟩
  have hV : ValidateBudgets wf seed (Value.budgets bs) =
      checkSources (mapRange seed (GetBudgetsBySourceMap bs)) := by
    simp only [ValidateBudgets, hvn]
  rw [hV]
  cases hc : checkSources (mapRange seed (GetBudgetsBySourceMap bs)) with
  | none =>
    have hw := (checkSources_map_iff seed bs).1 hc
    refine ⟨⟨fun ⟨_, _, h⟩ => by simp at h, ?_⟩, fun _ => rfl⟩
    rintro ⟨s, hs, b, hb, hbs, hgt⟩
    have := hw b hb (by rw [hbs]; exact hs)
    omega
  | some e =>
    obtain ⟨p, _, _, b, _, _, he⟩ := checkSources_eq_some _ _ hc
    have hne : ¬ windowRatesOk bs := by
      rw [← checkSources_map_iff seed bs, hc]
      simp
    refine ⟨⟨fun _ => ?_, fun _ => ⟨p.1, _, by rw [he]⟩⟩, fun h => absurd ⟨p.1, _, by rw [he]⟩ h⟩
    unfold windowRatesOk at hne
    push_neg at hne
    obtain ⟨c, hc1, hc2, hc3⟩ := hne
    exact ⟨c.SourceAddress, hc2, c, hc1, rfl, hc3⟩

/-- C3 witness: the three budgets of the keeper test "add budget 3 with invalid
total rate case 2" are rejected with `ErrInvalidTotalBudgetRate`. -/
theorem validateBudgets_total_rate_error_iff_witness :
    (∀ b ∈ farmingBudgets123, b.Validate anyAddress = none) ∧
    (farmingBudgets123.map (fun b => b.Name)).Nodup ∧
    (((∃ addr r, ValidateBudgets anyAddress [] (Value.budgets farmingBudgets123) =
        some (Err.ErrInvalidTotalBudgetRate addr r)) ↔
      ∃ s, OneDec < sumRates (budgetsOfSource s farmingBudgets123) ∧
        ∃ b ∈ farmingBudgets123, b.SourceAddress = s ∧
          OneDec < overlapRate farmingBudgets123 b) ∧
    ((¬ ∃ addr r, ValidateBudgets anyAddress [] (Value.budgets farmingBudgets123) =
        some (Err.ErrInvalidTotalBudgetRate addr r)) →
      ValidateBudgets anyAddress [] (Value.budgets farmingBudgets123) = none)) :=
  ⟨by decide, by decide,
    validateBudgets_total_rate_error_iff anyAddress [] farmingBudgets123 (by decide) (by decide)⟩

/-- C4: for budget lists whose budgets each pass `Budget.Validate`,
`ValidateBudgets` returns an `ErrDuplicateBudgetName` error iff two budgets at
different positions of the list have the same name, and the name the error wraps
occurs at least twice in the list. -/
theorem validateBudgets_duplicate_name_iff (wf : String → Bool) (seed : List Nat)
    (bs : List Budget) (hvalid : ∀ b ∈ bs, b.Validate wf = none) :
    ((∃ n, ValidateBudgets wf seed (Value.budgets bs) = some (Err.ErrDuplicateBudgetName n)) ↔
      ∃ i j, i < j ∧ j < bs.length ∧
        (bs.map (fun b => b.Name))[i]? = (bs.map (fun b => b.Name))[j]?) ∧
    (∀ n, ValidateBudgets wf seed (Value.budgets bs) = some (Err.ErrDuplicateBudgetName n) →
      2 ≤ (bs.map (fun b => b.Name)).count n) := by
  have hpos : (∃ i j, i < j ∧ j < bs.length ∧
        (bs.map (fun b => b.Name))[i]? = (bs.map (fun b => b.Name))[j]?) ↔
      ¬ (bs.map (fun b => b.Name)).Nodup := by
    rw [List.nodup_iff_getElem?_ne_getElem?]
    push_neg
    simp only [List.length_map]
  rw [hpos]
  simp only [ValidateBudgets]
  cases hv : validateNames wf [] bs with
  | none =>
    have hnd := ((validateNames_eq_none_iff wf [] bs).1 hv).2.2
    refine ⟨⟨?_, fun h => absurd hnd h⟩, ?_⟩
    · rintro ⟨n, hn⟩
      obtain ⟨_, _, _, _, _, _, he⟩ := checkSources_eq_some _ _ hn
      simp at he
    · intro n hn
      obtain ⟨_, _, _, _, _, _, he⟩ := checkSources_eq_some _ _ hn
      simp at he
  | some e =>
    obtain ⟨n, he, hcase⟩ := validateNames_some_dup wf [] bs e hvalid hv
    have h2 : 2 ≤ (bs.map (fun b => b.Name)).count n := by
      rcases hcase with ⟨h1, _⟩ | h1
      · simp at h1
      · exact h1
    subst he
    refine ⟨⟨fun _ hnd => ?_, fun _ => ⟨n, rfl⟩⟩, ?_⟩
    · have := List.nodup_iff_count_le_one.1 hnd n
      omega
    · intro m hm
      simp only [Option.some.injEq, Err.ErrDuplicateBudgetName.injEq] at hm
      subst hm
      exact h2

/-- C4 witness: a list that repeats the name of its first budget at its third
position is rejected with `ErrDuplicateBudgetName` wrapping that name. -/
theorem validateBudgets_duplicate_name_iff_witness :
    (∀ b ∈ farmingBudgets12 ++ farmingBudgets12, b.Validate anyAddress = none) ∧
    (((∃ n, ValidateBudgets anyAddress [] (Value.budgets (farmingBudgets12 ++ farmingBudgets12)) =
        some (Err.ErrDuplicateBudgetName n)) ↔
      ∃ i j, i < j ∧ j < (farmingBudgets12 ++ farmingBudgets12).length ∧
        ((farmingBudgets12 ++ farmingBudgets12).map (fun b => b.Name))[i]? =
          ((farmingBudgets12 ++ farmingBudgets12).map (fun b => b.Name))[j]?) ∧
    (∀ n, ValidateBudgets anyAddress [] (Value.budgets (farmingBudgets12 ++ farmingBudgets12)) =
        some (Err.ErrDuplicateBudgetName n) →
      2 ≤ ((farmingBudgets12 ++ farmingBudgets12).map (fun b => b.Name)).count n)) :=
  ⟨by decide,
    validateBudgets_duplicate_name_iff anyAddress [] (farmingBudgets12 ++ farmingBudgets12)
      (by decide)⟩

/-- C5: for budget lists whose budgets each pass `Budget.Validate` and whose names
are pairwise distinct, if the date ranges of any two budgets that share a source
address do not overlap, `ValidateBudgets` returns nil, whatever the rates of a
source sum to. -/
theorem validateBudgets_accepts_disjoint_ranges (wf : String → Bool) (seed : List Nat)
    (bs : List Budget) (hvalid : ∀ b ∈ bs, b.Validate wf = none)
    (hnames : (bs.map (fun b => b.Name)).Nodup)
    (hdisj : bs.Pairwise (fun a b => a.SourceAddress = b.SourceAddress →
      DateRangesOverlap a.StartTime a.EndTime b.StartTime b.EndTime = false)) :
    ValidateBudgets wf seed (Value.budgets bs) = none := by
  refine (validateBudgets_none_iff wf seed bs).2 ⟨hnames, hvalid, ?_⟩
  intro b hb _
  have hnd : bs.Nodup := List.Nodup.of_map _ hnames
  have hsymm : Symmetric (fun a b : Budget => a.SourceAddress = b.SourceAddress →
      DateRangesOverlap a.StartTime a.EndTime b.StartTime b.EndTime = false) := by
    intro x y hxy hyx
    rw [overlap_symm]
    exact hxy hyx.symm
  have hall : ∀ c ∈ (budgetsOfSource b.SourceAddress bs).filter (fun c =>
      DateRangesOverlap b.StartTime b.EndTime c.StartTime c.EndTime), c = b := by
    intro c hc
    obtain ⟨hcG, hov⟩ := List.mem_filter.1 hc
    obtain ⟨hcb, hcs⟩ := (mem_budgetsOfSource _ _ _).1 hcG
    by_contra hne
    have := hdisj.forall hsymm hb hcb (fun h => hne h.symm) hcs.symm
    rw [this] at hov
    exact Bool.false_ne_true hov
  have hLnd : ((budgetsOfSource b.SourceAddress bs).filter (fun c =>
      DateRangesOverlap b.StartTime b.EndTime c.StartTime c.EndTime)).Nodup :=
    (hnd.filter _).filter _
  obtain ⟨h0, h1, _⟩ := validate_none_bounds wf b (hvalid b hb)
  unfold overlapRate
  generalize (budgetsOfSource b.SourceAddress bs).filter (fun c =>
      DateRangesOverlap b.StartTime b.EndTime c.StartTime c.EndTime) = L at hall hLnd
  match L, hall, hLnd with
  | [], _, _ => simp [sumRates, OneDec]
  | [c], hall, _ =>
    have := hall c (List.mem_cons_self _ _)
    subst this
    simpa [sumRates] using h1
  | c :: d :: rest, hall, hLnd =>
    have e1 := hall c (List.mem_cons_self _ _)
    have e2 := hall d (List.mem_cons_of_mem _ (List.mem_cons_self _ _))
    rw [e1, e2] at hLnd
    simp at hLnd

/-- C5 witness: the two budgets of the keeper test "add budget 4 without date
range overlap" (rates 0.5 and 1.0 on one source, total 1.5) are accepted. -/
theorem validateBudgets_accepts_disjoint_ranges_witness :
    (∀ b ∈ farmingBudgets14, b.Validate anyAddress = none) ∧
    (farmingBudgets14.map (fun b => b.Name)).Nodup ∧
    farmingBudgets14.Pairwise (fun a b => a.SourceAddress = b.SourceAddress →
      DateRangesOverlap a.StartTime a.EndTime b.StartTime b.EndTime = false) ∧
    OneDec < sumRates (budgetsOfSource inflationPool farmingBudgets14) ∧
    ValidateBudgets anyAddress [] (Value.budgets farmingBudgets14) = none :=
  ⟨by decide, by decide, by decide, by decide,
    validateBudgets_accepts_disjoint_ranges anyAddress [] farmingBudgets14
      (by decide) (by decide) (by decide)⟩

/-! ## Lemmas on the selector and on the share computation -/

theorem collectibleBudgets_foldl (bs acc : List Budget) (t : Int) :
    bs.foldl (fun collectible budget =>
      if budget.StartTime ≤ t ∧ t < budget.EndTime
      then collectible ++ [budget] else collectible) acc =
    acc ++ bs.filter (fun b => decide (b.StartTime ≤ t ∧ t < b.EndTime)) := by
  induction bs generalizing acc with
  | nil => simp
  | cons b rest ih =>
    simp only [List.foldl_cons, ih, List.filter_cons]
    by_cases h : b.StartTime ≤ t ∧ t < b.EndTime
    · simp [h]
    · simp [h]

theorem collectibleBudgets_eq_filter (bs : List Budget) (t : Int) :
    CollectibleBudgets bs t = bs.filter (fun b => decide (b.StartTime ≤ t ∧ t < b.EndTime)) := by
  unfold CollectibleBudgets
  rw [collectibleBudgets_foldl]
  simp

theorem oneDec_pos : (0 : Int) < OneDec := by
  unfold OneDec; norm_num

theorem mulDec_exact (n : Nat) (r : Int) : (n : Int) * OneDec * r / OneDec = (n : Int) * r := by
  have : (n : Int) * OneDec * r = (n : Int) * r * OneDec := by ring
  rw [this]
  exact Int.mul_ediv_cancel _ (ne_of_gt oneDec_pos)

theorem shareOf_eq (B : Coins) (r : Int) :
    shareOf B r = B.filterMap (fun c =>
      if shareAmount c.2 r = 0 then none else some (c.1, shareAmount c.2 r)) := by
  unfold shareOf TruncateDecimal MulDec NewDecCoinsFromCoins
  rw [List.filterMap_map, List.filterMap_filterMap]
  apply List.filterMap_congr
  intro c _
  simp only [Function.comp, mulDec_exact, shareAmount]
  by_cases h : (c.2 : Int) * r = 0
  · simp [h]
  · simp [h]

theorem shareAmount_le (n : Nat) (r : Int) (h1 : r ≤ OneDec) : shareAmount n r ≤ n := by
  unfold shareAmount
  have hn : (0 : Int) ≤ n := Int.ofNat_nonneg n
  have h2 : (n : Int) * r ≤ (n : Int) * OneDec := Int.mul_le_mul_of_nonneg_left h1 hn
  have h3 : (n : Int) * r / OneDec ≤ (n : Int) * OneDec / OneDec :=
    Int.ediv_le_ediv oneDec_pos h2
  rw [Int.mul_ediv_cancel _ (ne_of_gt oneDec_pos)] at h3
  omega

theorem shareAmount_zero (r : Int) : shareAmount 0 r = 0 := by
  simp [shareAmount]

theorem amountOf_eq_zero_of_not_mem (B : Coins) (d : String)
    (h : d ∉ B.map Prod.fst) : amountOf B d = 0 := by
  induction B with
  | nil => rfl
  | cons c rest ih =>
    obtain ⟨d0, n⟩ := c
    simp only [List.map_cons, List.mem_cons, not_or] at h
    simp only [amountOf]
    rw [if_neg (fun e => h.1 e.symm)]
    exact ih h.2

theorem amountOf_shareOf (B : Coins) (r : Int) (hB : (B.map Prod.fst).Nodup) (d : String) :
    amountOf (shareOf B r) d = shareAmount (amountOf B d) r := by
  rw [shareOf_eq]
  induction B with
  | nil => simp [amountOf, shareAmount_zero]
  | cons c rest ih =>
    obtain ⟨d0, n⟩ := c
    simp only [List.map_cons, List.nodup_cons] at hB
    have ih2 := ih hB.2
    by_cases hz : shareAmount n r = 0
    · rw [List.filterMap_cons_none (by simp [hz])]
      by_cases hd : d0 = d
      · subst hd
        rw [ih2, amountOf_eq_zero_of_not_mem rest d0 hB.1]
        simp [amountOf, hz, shareAmount_zero]
      · rw [ih2]
        simp [amountOf, hd]
    · simp only [List.filterMap_cons, hz, if_false]
      by_cases hd : d0 = d
      · simp [amountOf, hd]
      · simp only [amountOf, hd, if_false]
        exact ih2

theorem shareOf_entries_ne_zero (B : Coins) (r : Int) : ∀ c ∈ shareOf B r, c.2 ≠ 0 := by
  intro c hc
  rw [shareOf_eq, List.mem_filterMap] at hc
  obtain ⟨e, _, he⟩ := hc
  by_cases hz : shareAmount e.2 r = 0
  · simp [hz] at he
  · simp only [hz, if_false, Option.some.injEq] at he
    rw [← he]
    exact hz

/-! ## Claims on the selector, the share computation and the disabled collector -/

/-- C6: `CollectibleBudgets(bs, t)` is the sublist of `bs`, in input order and with
multiplicities kept, of the budgets with `start_time ≤ t < end_time`; a budget is
not collectible at `t = end_time` nor at any `t` before `start_time`. -/
theorem collectibleBudgets_is_active_sublist (bs : List Budget) (t : Int) :
    CollectibleBudgets bs t = bs.filter (fun b => decide (b.StartTime ≤ t ∧ t < b.EndTime)) ∧
    (CollectibleBudgets bs t).Sublist bs ∧
    (∀ b, (CollectibleBudgets bs t).count b =
      if b.StartTime ≤ t ∧ t < b.EndTime then bs.count b else 0) ∧
    (∀ b, t = b.EndTime ∨ t < b.StartTime → b ∉ CollectibleBudgets bs t) := by
  rw [collectibleBudgets_eq_filter]
  refine ⟨rfl, List.filter_sublist _, ?_, ?_⟩
  · intro b
    by_cases h : b.StartTime ≤ t ∧ t < b.EndTime
    · rw [if_pos h]
      exact List.count_filter (by simpa using h)
    · rw [if_neg h]
      apply List.count_eq_zero_of_not_mem
      intro hb
      have := (List.mem_filter.1 hb).2
      simp only [decide_eq_true_eq] at this
      exact h this
  · intro b hb hmem
    have := (List.mem_filter.1 hmem).2
    simp only [decide_eq_true_eq] at this
    omega

/-- C9: for a coin bag `B` (one entry per denomination) and a rate `r` with
`0 ≤ r ≤ 1`, the share (decimal coins of `B` times `r`, truncated) holds for each
denomination the amount `floor(r · amount)`, has no entry whose amount is zero,
and no amount of it exceeds the corresponding amount of `B`. -/
theorem shareOf_floor_nonzero_le (B : Coins) (r : Int) (h0 : 0 ≤ r) (h1 : r ≤ OneDec)
    (hB : (B.map Prod.fst).Nodup) :
    (∀ d, (amountOf (shareOf B r) d : Int) = (amountOf B d : Int) * r / OneDec) ∧
    (∀ c ∈ shareOf B r, c.2 ≠ 0) ∧
    (∀ d, amountOf (shareOf B r) d ≤ amountOf B d) := by
  refine ⟨?_, shareOf_entries_ne_zero B r, ?_⟩
  · intro d
    rw [amountOf_shareOf B r hB d]
    unfold shareAmount
    apply Int.toNat_of_nonneg
    exact Int.ediv_nonneg (Int.mul_nonneg (Int.ofNat_nonneg _) h0) (le_of_lt oneDec_pos)
  · intro d
    rw [amountOf_shareOf B r hB d]
    exact shareAmount_le _ r h1

/-- C9 witness: half of the balances of the keeper test "source has small
balances case": `1denom1, 2denom2, 3denom3, 10^9 stake` at rate 0.5. -/
theorem shareOf_floor_nonzero_le_witness :
    shareOf [("denom1", 1), ("denom2", 2), ("denom3", 3), ("stake", 1000000000)]
        500000000000000000 = [("denom2", 1), ("denom3", 1), ("stake", 500000000)] ∧
    ((∀ d, (amountOf (shareOf [("denom1", 1), ("denom2", 2), ("denom3", 3),
          ("stake", 1000000000)] 500000000000000000) d : Int) =
        (amountOf [("denom1", 1), ("denom2", 2), ("denom3", 3), ("stake", 1000000000)] d : Int)
          * 500000000000000000 / OneDec) ∧
    (∀ c ∈ shareOf [("denom1", 1), ("denom2", 2), ("denom3", 3), ("stake", 1000000000)]
        500000000000000000, c.2 ≠ 0) ∧
    (∀ d, amountOf (shareOf [("denom1", 1), ("denom2", 2), ("denom3", 3),
          ("stake", 1000000000)] 500000000000000000) d ≤
        amountOf [("denom1", 1), ("denom2", 2), ("denom3", 3), ("stake", 1000000000)] d)) :=
  ⟨by decide,
    shareOf_floor_nonzero_le [("denom1", 1), ("denom2", 2), ("denom3", 3), ("stake", 1000000000)]
      500000000000000000 (by decide) (by decide) (by decide)⟩

/-- C10: when `EpochBlocks` is 0, `CollectBudgets` returns success and the state it
returns is the state it was given: no balance and no counter has changed, for
every budget list, block time and block height. -/
theorem collectBudgets_disabled (st : State) (blockTime blockHeight : Int)
    (h0 : st.params.EpochBlocks = 0) :
    CollectBudgets st blockTime blockHeight = Except.ok st := by
  simp [CollectBudgets, h0]

/-- C10 witness: the state of the keeper test "disabled budget epoch with budgets":
three budgets are active at the block time, `EpochBlocks` is 0. -/
theorem collectBudgets_disabled_witness :
    (CollectibleBudgets (suiteState 0).params.Budgets 50).length = 3 ∧
    CollectBudgets (suiteState 0) 50 1 = Except.ok (suiteState 0) :=
  ⟨by decide, collectBudgets_disabled (suiteState 0) 50 1 rfl⟩

/-! ## Lemmas on the collector -/

theorem sendCoins_ok (bank : Bank) (fromAddr toAddr : String) (amt : Coins)
    (h : ∀ d, amountOf amt d ≤ bank.balance fromAddr d) :
    bank.SendCoins fromAddr toAddr amt =
      Except.ok ((bank.debit fromAddr amt).credit toAddr amt) := by
  unfold Bank.SendCoins
  rw [if_pos]
  rw [List.all_eq_true]
  intro c _
  simpa using h c.1

theorem collectGroup_cons_empty (bal : Coins) (s : String) (b : Budget) (rest : List Budget)
    (st : State) (he : shareOf bal b.Rate = []) :
    collectGroup bal s (b :: rest) st = collectGroup bal s rest st := by
  simp only [collectGroup]
  rw [if_pos he]

theorem collectGroup_cons_send (bal : Coins) (s : String) (b : Budget) (rest : List Budget)
    (st : State) (he : shareOf bal b.Rate ≠ [])
    (hle : ∀ d, amountOf (shareOf bal b.Rate) d ≤ st.bank.balance s d) :
    collectGroup bal s (b :: rest) st =
      collectGroup bal s rest (st.delivered s b (shareOf bal b.Rate)) := by
  simp only [collectGroup]
  rw [if_neg he, sendCoins_ok st.bank s b.DestinationAddress (shareOf bal b.Rate) hle]
  rfl

theorem collectGroup_ok (bal : Coins) (s : String) (budgets : List Budget) (st : State)
    (hdest : ∀ b ∈ budgets, b.DestinationAddress ≠ s)
    (hfund : ∀ d, (budgets.map (fun b => amountOf (shareOf bal b.Rate) d)).sum
      ≤ st.bank.balance s d) :
    ∃ st', collectGroup bal s budgets st = Except.ok st' ∧ st'.params = st.params ∧
      st'.bank.denoms = st.bank.denoms ∧
      (∀ d, st'.bank.balance s d +
        (budgets.map (fun b => amountOf (shareOf bal b.Rate) d)).sum = st.bank.balance s d) ∧
      (∀ a, a ≠ s → ∀ d, st'.bank.balance a d = st.bank.balance a d +
        ((budgets.filter (fun b => b.DestinationAddress = a)).map
          (fun b => amountOf (shareOf bal b.Rate) d)).sum) := by
  induction budgets generalizing st with
  | nil => exact ⟨st, rfl, rfl, rfl, by simp, by simp⟩
  | cons b rest ih =>
    have hb := hdest b (List.mem_cons_self _ _)
    have hrest : ∀ c ∈ rest, c.DestinationAddress ≠ s :=
      fun c hc => hdest c (List.mem_cons_of_mem _ hc)
    have hf : ∀ d, amountOf (shareOf bal b.Rate) d +
        (rest.map (fun b => amountOf (shareOf bal b.Rate) d)).sum ≤ st.bank.balance s d := by
      intro d
      have := hfund d
      simp only [List.map_cons, List.sum_cons] at this
      exact this
    by_cases he : shareOf bal b.Rate = []
    · rw [collectGroup_cons_empty bal s b rest st he]
      have hx : ∀ d, amountOf (shareOf bal b.Rate) d = 0 := by
        intro d; rw [he]; rfl
      obtain ⟨st', h1, h2, h3, h4, h5⟩ := ih st hrest (fun d => by
        have := hf d
        omega)
      refine ⟨st', h1, h2, h3, ?_, ?_⟩
      · intro d
        simp only [List.map_cons, List.sum_cons, hx, zero_add]
        exact h4 d
      · intro a ha d
        rw [h5 a ha d]
        by_cases hba : b.DestinationAddress = a
        · rw [List.filter_cons_of_pos (by simpa using hba)]
          simp only [List.map_cons, List.sum_cons, hx, zero_add]
        · rw [List.filter_cons_of_neg (by simpa using hba)]
    · have hle : ∀ d, amountOf (shareOf bal b.Rate) d ≤ st.bank.balance s d := by
        intro d
        have := hf d
        omega
      rw [collectGroup_cons_send bal s b rest st he hle]
      have hbal : ∀ a d, (st.delivered s b (shareOf bal b.Rate)).bank.balance a d =
          if a = b.DestinationAddress then
            (if a = s then st.bank.balance a d - amountOf (shareOf bal b.Rate) d
              else st.bank.balance a d) + amountOf (shareOf bal b.Rate) d
          else if a = s then st.bank.balance a d - amountOf (shareOf bal b.Rate) d
          else st.bank.balance a d := fun _ _ => rfl
      obtain ⟨st', h1, h2, h3, h4, h5⟩ := ih (st.delivered s b (shareOf bal b.Rate))
          hrest (fun d => by
        have := hf d
        rw [hbal, if_neg (fun e => hb e.symm), if_pos rfl]
        omega)
      refine ⟨st', h1, h2, h3, ?_, ?_⟩
      · intro d
        have h4d := h4 d
        have := hf d
        rw [hbal, if_neg (fun e => hb e.symm), if_pos rfl] at h4d
        simp only [List.map_cons, List.sum_cons]
        omega
      · intro a ha d
        rw [h5 a ha d, hbal]
        by_cases hba : b.DestinationAddress = a
        · rw [List.filter_cons_of_pos (by simpa using hba)]
          simp only [List.map_cons, List.sum_cons]
          rw [if_pos hba.symm, if_neg ha]
          omega
        · rw [List.filter_cons_of_neg (by simpa using hba)]
          rw [if_neg (fun e => hba e.symm), if_neg ha]

theorem shareAmount_cast (n : Nat) (r : Int) (h0 : 0 ≤ r) :
    (shareAmount n r : Int) = (n : Int) * r / OneDec := by
  unfold shareAmount
  exact Int.toNat_of_nonneg
    (Int.ediv_nonneg (Int.mul_nonneg (Int.ofNat_nonneg _) h0) (le_of_lt oneDec_pos))

theorem sum_shareAmount_le_int (n : Nat) (l : List Budget) (hnn : ∀ b ∈ l, 0 ≤ b.Rate) :
    (((l.map (fun b => shareAmount n b.Rate)).sum : Nat) : Int) ≤
      (n : Int) * sumRates l / OneDec := by
  induction l with
  | nil => simp [sumRates]
  | cons b rest ih =>
    have ih2 := ih (fun c hc => hnn c (List.mem_cons_of_mem _ hc))
    have hb := hnn b (List.mem_cons_self _ _)
    simp only [List.map_cons, List.sum_cons, sumRates, Nat.cast_add] at ih2 ⊢
    rw [shareAmount_cast n b.Rate hb, Int.le_ediv_iff_mul_le oneDec_pos]
    have h1 := Int.ediv_mul_le ((n : Int) * b.Rate) (ne_of_gt oneDec_pos)
    have h2 := (Int.le_ediv_iff_mul_le oneDec_pos).1 ih2
    have h3 : (n : Int) * (b.Rate + (rest.map (fun b => b.Rate)).sum) =
        (n : Int) * b.Rate + (n : Int) * (rest.map (fun b => b.Rate)).sum := by ring
    rw [h3, add_mul]
    exact add_le_add h1 h2

theorem sum_shareAmount_le (n : Nat) (l : List Budget) (hnn : ∀ b ∈ l, 0 ≤ b.Rate)
    (hsum : sumRates l ≤ OneDec) : (l.map (fun b => shareAmount n b.Rate)).sum ≤ n := by
  have h1 := sum_shareAmount_le_int n l hnn
  have h2 : (n : Int) * sumRates l ≤ (n : Int) * OneDec :=
    Int.mul_le_mul_of_nonneg_left hsum (Int.ofNat_nonneg n)
  have h3 := Int.ediv_le_ediv oneDec_pos h2
  rw [Int.mul_ediv_cancel _ (ne_of_gt oneDec_pos)] at h3
  omega

theorem amountOf_functional (B : Coins) (f : String → Nat) (hfun : ∀ c ∈ B, c.2 = f c.1)
    (d : String) : amountOf B d = 0 ∨ amountOf B d = f d := by
  induction B with
  | nil => exact Or.inl rfl
  | cons c rest ih =>
    obtain ⟨d0, n⟩ := c
    have hc := hfun (d0, n) (List.mem_cons_self _ _)
    simp only [amountOf]
    by_cases hd : d0 = d
    · rw [if_pos hd]
      subst hd
      exact Or.inr hc
    · rw [if_neg hd]
      exact ih (fun c hc => hfun c (List.mem_cons_of_mem _ hc))

theorem amountOf_shareOf_functional (B : Coins) (f : String → Nat)
    (hfun : ∀ c ∈ B, c.2 = f c.1) (r : Int) (d : String) :
    amountOf (shareOf B r) d = shareAmount (amountOf B d) r := by
  rw [shareOf_eq]
  induction B with
  | nil => simp [amountOf, shareAmount_zero]
  | cons c rest ih =>
    obtain ⟨d0, n⟩ := c
    have hc : n = f d0 := hfun (d0, n) (List.mem_cons_self _ _)
    have hrest : ∀ c ∈ rest, c.2 = f c.1 := fun c hc => hfun c (List.mem_cons_of_mem _ hc)
    have ih2 := ih hrest
    by_cases hz : shareAmount n r = 0
    · rw [List.filterMap_cons_none (by simp [hz])]
      by_cases hd : d0 = d
      · subst hd
        rw [ih2]
        simp only [amountOf, if_true, hz]
        rcases amountOf_functional rest f hrest d0 with h | h
        · rw [h, shareAmount_zero]
        · rw [h, ← hc, hz]
      · rw [ih2]
        simp [amountOf, hd]
    · simp only [List.filterMap_cons, hz, if_false]
      by_cases hd : d0 = d
      · simp [amountOf, hd]
      · simp only [amountOf, hd, if_false]
        exact ih2

theorem getAllBalances_functional (bank : Bank) (s : String) :
    ∀ c ∈ bank.GetAllBalances s, c.2 = bank.balance s c.1 := by
  intro c hc
  unfold Bank.GetAllBalances at hc
  rw [List.mem_filterMap] at hc
  obtain ⟨d, _, hd⟩ := hc
  by_cases hz : bank.balance s d = 0
  · simp [hz] at hd
  · simp only [hz, if_false, Option.some.injEq] at hd
    rw [← hd]

theorem amountOf_getAllBalances_le (bank : Bank) (s d : String) :
    amountOf (bank.GetAllBalances s) d ≤ bank.balance s d := by
  rcases amountOf_functional _ _ (getAllBalances_functional bank s) d with h | h
  · rw [h]; exact Nat.zero_le _
  · rw [h]

theorem getAllBalances_congr (b1 b2 : Bank) (s : String) (h1 : b1.denoms = b2.denoms)
    (h2 : ∀ d, b1.balance s d = b2.balance s d) :
    b1.GetAllBalances s = b2.GetAllBalances s := by
  unfold Bank.GetAllBalances
  rw [h1]
  apply List.filterMap_congr
  intro d _
  rw [h2 d]

/-- The shares of a group served from the snapshot of its source are funded. -/
theorem group_funded (bank : Bank) (s : String) (l : List Budget)
    (hnn : ∀ b ∈ l, 0 ≤ b.Rate) (hsum : sumRates l ≤ OneDec) (d : String) :
    (l.map (fun b => amountOf (shareOf (bank.GetAllBalances s) b.Rate) d)).sum
      ≤ bank.balance s d := by
  have h1 : l.map (fun b => amountOf (shareOf (bank.GetAllBalances s) b.Rate) d) =
      l.map (fun b => shareAmount (amountOf (bank.GetAllBalances s) d) b.Rate) := by
    apply List.map_congr_left
    intro b _
    exact amountOf_shareOf_functional _ _ (getAllBalances_functional bank s) b.Rate d
  rw [h1]
  exact le_trans (sum_shareAmount_le _ l hnn hsum) (amountOf_getAllBalances_le bank s d)

theorem collectSources_ok (gs : List (String × BudgetsBySource)) (st : State)
    (hself : ∀ p ∈ gs, ∀ b ∈ p.2.Budgets, b.DestinationAddress ≠ p.1)
    (hrate : ∀ p ∈ gs, (∀ b ∈ p.2.Budgets, 0 ≤ b.Rate) ∧ sumRates p.2.Budgets ≤ OneDec) :
    ∃ st', collectSources gs st = Except.ok st' ∧ st'.params = st.params ∧
      st'.bank.denoms = st.bank.denoms := by
  induction gs generalizing st with
  | nil => exact ⟨st, rfl, rfl, rfl⟩
  | cons p rest ih =>
    obtain ⟨s, g⟩ := p
    have hp := hrate (s, g) (List.mem_cons_self _ _)
    obtain ⟨st1, h1, h2, h3, _, _⟩ := collectGroup_ok (st.bank.GetAllBalances s) s g.Budgets st
      (hself (s, g) (List.mem_cons_self _ _))
      (group_funded st.bank s g.Budgets hp.1 hp.2)
    obtain ⟨st', h4, h5, h6⟩ := ih st1
      (fun q hq => hself q (List.mem_cons_of_mem _ hq))
      (fun q hq => hrate q (List.mem_cons_of_mem _ hq))
    refine ⟨st', ?_, h5.trans h2, h6.trans h3⟩
    simp only [collectSources, h1]
    exact h4

theorem collectSources_gain (gs : List (String × BudgetsBySource)) (st : State)
    (hkeys : (gs.map Prod.fst).Nodup)
    (hsep : ∀ p ∈ gs, ∀ b ∈ p.2.Budgets, b.DestinationAddress ∉ gs.map Prod.fst)
    (hrate : ∀ p ∈ gs, (∀ b ∈ p.2.Budgets, 0 ≤ b.Rate) ∧ sumRates p.2.Budgets ≤ OneDec) :
    ∃ st', collectSources gs st = Except.ok st' ∧ st'.bank.denoms = st.bank.denoms ∧
      ∀ a, a ∉ gs.map Prod.fst → ∀ d, st'.bank.balance a d = st.bank.balance a d +
        (gs.map (fun p => ((p.2.Budgets.filter (fun b => b.DestinationAddress = a)).map
          (fun b => amountOf (shareOf (st.bank.GetAllBalances p.1) b.Rate) d)).sum)).sum := by
  induction gs generalizing st with
  | nil => exact ⟨st, rfl, rfl, by simp⟩
  | cons p rest ih =>
    obtain ⟨s, g⟩ := p
    simp only [List.map_cons, List.nodup_cons] at hkeys
    have hp := hrate (s, g) (List.mem_cons_self _ _)
    have hsg := hsep (s, g) (List.mem_cons_self _ _)
    obtain ⟨st1, h1, _, h3, _, h5⟩ := collectGroup_ok (st.bank.GetAllBalances s) s g.Budgets st
      (fun b hb e => hsg b hb (by rw [e]; exact List.mem_cons_self _ _))
      (group_funded st.bank s g.Budgets hp.1 hp.2)
    obtain ⟨st', h4, h6, h7⟩ := ih st1 hkeys.2
      (fun q hq b hb hmem => hsep q (List.mem_cons_of_mem _ hq) b hb
        (List.mem_cons_of_mem _ hmem))
      (fun q hq => hrate q (List.mem_cons_of_mem _ hq))
    refine ⟨st', ?_, h6.trans h3, ?_⟩
    · simp only [collectSources, h1]
      exact h4
    · intro a ha d
      simp only [List.map_cons, List.mem_cons, not_or] at ha
      rw [h7 a ha.2 d, h5 a ha.1 d]
      have hsnap : ∀ q ∈ rest, st1.bank.GetAllBalances q.1 = st.bank.GetAllBalances q.1 := by
        intro q hq
        have hq1 : q.1 ∈ rest.map Prod.fst := List.mem_map.2 ⟨q, hq, rfl⟩
        have hqs : q.1 ≠ s := fun e => hkeys.1 (e ▸ hq1)
        apply getAllBalances_congr _ _ _ h3
        intro d2
        rw [h5 q.1 hqs d2]
        have : g.Budgets.filter (fun b => b.DestinationAddress = q.1) = [] := by
          rw [List.filter_eq_nil_iff]
          intro b hb
          simp only [decide_eq_true_eq]
          intro e
          exact hsg b hb (by rw [e]; exact List.mem_cons_of_mem _ hq1)
        rw [this]
        simp
      have hmap : rest.map (fun p => ((p.2.Budgets.filter (fun b => b.DestinationAddress = a)).map
          (fun b => amountOf (shareOf (st1.bank.GetAllBalances p.1) b.Rate) d)).sum) =
          rest.map (fun p => ((p.2.Budgets.filter (fun b => b.DestinationAddress = a)).map
          (fun b => amountOf (shareOf (st.bank.GetAllBalances p.1) b.Rate) d)).sum) := by
        apply List.map_congr_left
        intro q hq
        rw [hsnap q hq]
      rw [hmap]
      simp only [List.map_cons, List.sum_cons]
      omega

theorem sourceKeys_nodup (bs : List Budget) : (sourceKeys bs).Nodup := by
  induction bs with
  | nil => simp [sourceKeys]
  | cons b rest ih =>
    simp only [sourceKeys, List.nodup_cons, List.mem_filter, decide_eq_true_eq, not_and,
      not_not]
    exact ⟨fun _ => trivial, ih.filter _⟩

theorem getBudgetsBySourceMap_keys (bs : List Budget) :
    (GetBudgetsBySourceMap bs).map Prod.fst = sourceKeys bs := by
  unfold GetBudgetsBySourceMap
  rw [List.map_map]
  induction sourceKeys bs with
  | nil => rfl
  | cons a rest ih => simp only [List.map_cons, Function.comp, ih]

theorem sum_indicator (keys : List String) (x : String) (v : Nat) (hk : keys.Nodup)
    (hx : x ∈ keys) : (keys.map (fun s => if x = s then v else 0)).sum = v := by
  induction keys with
  | nil => simp at hx
  | cons k rest ih =>
    simp only [List.nodup_cons] at hk
    simp only [List.map_cons, List.sum_cons]
    by_cases hxk : x = k
    · subst hxk
      have : rest.map (fun s => if x = s then v else 0) = rest.map (fun _ => 0) := by
        apply List.map_congr_left
        intro s hs
        have hne : ¬ x = s := fun e => hk.1 (by rw [e]; exact hs)
        rw [if_neg hne]
      rw [this]
      simp
    · rw [if_neg hxk, zero_add]
      rcases List.mem_cons.1 hx with h | h
      · exact absurd h hxk
      · exact ih hk.2 h

theorem sum_groups_eq (A : List Budget) (g : Budget → Nat) (keys : List String)
    (hk : keys.Nodup) (hcover : ∀ b ∈ A, b.SourceAddress ∈ keys) :
    (keys.map (fun s => ((budgetsOfSource s A).map g).sum)).sum = (A.map g).sum := by
  induction A with
  | nil => simp [budgetsOfSource]
  | cons b rest ih =>
    have ih2 := ih (fun c hc => hcover c (List.mem_cons_of_mem _ hc))
    have hb := hcover b (List.mem_cons_self _ _)
    have hfun : keys.map (fun s => ((budgetsOfSource s (b :: rest)).map g).sum) =
        keys.map (fun s => (if b.SourceAddress = s then g b else 0) +
          ((budgetsOfSource s rest).map g).sum) := by
      apply List.map_congr_left
      intro s _
      unfold budgetsOfSource
      by_cases hs : b.SourceAddress = s
      · rw [List.filter_cons_of_pos (by simpa using hs), if_pos hs]
        simp
      · rw [List.filter_cons_of_neg (by simpa using hs), if_neg hs]
        simp
    rw [hfun, List.sum_map_add, sum_indicator keys b.SourceAddress (g b) hk hb, ih2]
    simp

theorem groups_sum_eq (A : List Budget) (q : Budget → Bool) (F : String → Budget → Nat) :
    ((GetBudgetsBySourceMap A).map (fun p => ((p.2.Budgets.filter q).map (F p.1)).sum)).sum =
      ((A.filter q).map (fun b => F b.SourceAddress b)).sum := by
  have h1 : (GetBudgetsBySourceMap A).map
        (fun p => ((p.2.Budgets.filter q).map (F p.1)).sum) =
      (sourceKeys A).map (fun s =>
        ((budgetsOfSource s (A.filter q)).map (fun b => F b.SourceAddress b)).sum) := by
    unfold GetBudgetsBySourceMap
    rw [List.map_map]
    apply List.map_congr_left
    intro s _
    simp only [Function.comp, budgetsOfSource, List.filter_filter]
    have h2 : A.filter (fun a => q a && decide (a.SourceAddress = s)) =
        A.filter (fun a => decide (a.SourceAddress = s) && q a) := by
      apply List.filter_congr
      intro b _
      exact Bool.and_comm _ _
    rw [h2]
    congr 1
    apply List.map_congr_left
    intro b hb
    have := (List.mem_filter.1 hb).2
    simp only [Bool.and_eq_true, decide_eq_true_eq] at this
    rw [this.1]
  rw [h1]
  apply sum_groups_eq _ _ _ (sourceKeys_nodup A)
  intro b hb
  exact (mem_sourceKeys A _).2 ⟨b, (List.mem_filter.1 hb).1, rfl⟩

theorem budgetsOfSource_collectible (bs : List Budget) (s : String) (t : Int) :
    budgetsOfSource s (CollectibleBudgets bs t) =
      (budgetsOfSource s bs).filter (Budget.activeAt t) := by
  rw [collectibleBudgets_eq_filter]
  simp only [budgetsOfSource, List.filter_filter]
  apply List.filter_congr
  intro b _
  simp only [Budget.activeAt, Bool.decide_and]
  exact Bool.and_comm _ _

theorem validate_none_dest_ne (wf : String → Bool) (b : Budget)
    (h : b.Validate wf = none) : b.DestinationAddress ≠ b.SourceAddress := by
  unfold Budget.Validate at h
  split_ifs at h with h1 h2 h3 h4 h5 h6
  exact fun e => h5 e.symm

theorem mem_collectible (bs : List Budget) (t : Int) (b : Budget)
    (h : b ∈ CollectibleBudgets bs t) : b ∈ bs := by
  rw [collectibleBudgets_eq_filter] at h
  exact (List.mem_filter.1 h).1

/-- The source groups of the active budgets of accepted parameters: no budget
pays its own source, rates are non-negative and sum to at most one. -/
theorem accepted_groups (wf : String → Bool) (seed : List Nat) (bs : List Budget) (t : Int)
    (hacc : ValidateBudgets wf seed (Value.budgets bs) = none) :
    (∀ p ∈ GetBudgetsBySourceMap (CollectibleBudgets bs t),
      ∀ b ∈ p.2.Budgets, b.DestinationAddress ≠ p.1) ∧
    (∀ p ∈ GetBudgetsBySourceMap (CollectibleBudgets bs t),
      (∀ b ∈ p.2.Budgets, 0 ≤ b.Rate) ∧ sumRates p.2.Budgets ≤ OneDec) := by
  obtain ⟨_, hvalid, hw⟩ := (validateBudgets_none_iff wf seed bs).1 hacc
  have hmem : ∀ p ∈ GetBudgetsBySourceMap (CollectibleBudgets bs t),
      p.2.Budgets = budgetsOfSource p.1 (CollectibleBudgets bs t) := by
    intro p hp
    rw [((mem_GetBudgetsBySourceMap _ p).1 hp).2]
  constructor
  · intro p hp b hb
    rw [hmem p hp] at hb
    obtain ⟨hb1, hb2⟩ := (mem_budgetsOfSource _ _ _).1 hb
    rw [← hb2]
    exact validate_none_dest_ne wf b (hvalid b (mem_collectible bs t b hb1))
  · intro p hp
    rw [hmem p hp]
    constructor
    · intro b hb
      obtain ⟨hb1, _⟩ := (mem_budgetsOfSource _ _ _).1 hb
      exact (validate_none_bounds wf b (hvalid b (mem_collectible bs t b hb1))).1
    · rw [budgetsOfSource_collectible]
      exact windowRatesOk_activeRate wf bs hvalid hw p.1 t

theorem amountOf_shareOf_snapshot (bank : Bank) (s : String) (r : Int) (d : String) :
    amountOf (shareOf (bank.GetAllBalances s) r) d =
      shareAmount (amountOf (bank.GetAllBalances s) d) r :=
  amountOf_shareOf_functional _ _ (getAllBalances_functional bank s) r d

/-- Balance of a pure destination after a collection on accepted parameters. -/
theorem collectBudgets_gain (wf : String → Bool) (seed : List Nat) (st : State)
    (blockTime blockHeight : Int)
    (hacc : ValidateBudgets wf seed (Value.budgets st.params.Budgets) = none)
    (hep : 0 < st.params.EpochBlocks)
    (hcad : blockHeight % (st.params.EpochBlocks : Int) = 0)
    (hsep : ∀ b ∈ CollectibleBudgets st.params.Budgets blockTime,
      ∀ c ∈ CollectibleBudgets st.params.Budgets blockTime,
        b.DestinationAddress ≠ c.SourceAddress) :
    ∃ st', CollectBudgets st blockTime blockHeight = Except.ok st' ∧
      ∀ b ∈ CollectibleBudgets st.params.Budgets blockTime, ∀ d,
        st'.bank.balance b.DestinationAddress d = st.bank.balance b.DestinationAddress d +
          (((CollectibleBudgets st.params.Budgets blockTime).filter
              (fun c => c.DestinationAddress = b.DestinationAddress)).map
            (fun c => shareAmount (amountOf (st.bank.GetAllBalances c.SourceAddress) d)
              c.Rate)).sum := by
  unfold CollectBudgets
  rw [if_neg (by omega), if_neg (by simpa using hcad)]
  by_cases hA : CollectibleBudgets st.params.Budgets blockTime = []
  · rw [if_pos hA]
    refine ⟨st, rfl, ?_⟩
    intro b hb
    rw [hA] at hb
    simp at hb
  · rw [if_neg hA]
    obtain ⟨_, hrate⟩ := accepted_groups wf seed st.params.Budgets blockTime hacc
    have hkeys : ((GetBudgetsBySourceMap
        (CollectibleBudgets st.params.Budgets blockTime)).map Prod.fst).Nodup := by
      rw [getBudgetsBySourceMap_keys]
      exact sourceKeys_nodup _
    have hsep2 : ∀ p ∈ GetBudgetsBySourceMap (CollectibleBudgets st.params.Budgets blockTime),
        ∀ b ∈ p.2.Budgets, b.DestinationAddress ∉
          (GetBudgetsBySourceMap (CollectibleBudgets st.params.Budgets blockTime)).map
            Prod.fst := by
      intro p hp b hb hmem
      rw [getBudgetsBySourceMap_keys, mem_sourceKeys] at hmem
      obtain ⟨c, hc, hcs⟩ := hmem
      rw [((mem_GetBudgetsBySourceMap _ p).1 hp).2] at hb
      exact hsep b ((mem_budgetsOfSource _ _ _).1 hb).1 c hc hcs.symm
    obtain ⟨st', h1, _, h3⟩ := collectSources_gain _ st hkeys hsep2 hrate
    refine ⟨st', h1, ?_⟩
    intro b hb d
    have hnot : b.DestinationAddress ∉ (GetBudgetsBySourceMap
        (CollectibleBudgets st.params.Budgets blockTime)).map Prod.fst := by
      intro hmem
      rw [getBudgetsBySourceMap_keys, mem_sourceKeys] at hmem
      obtain ⟨c, hc, hcs⟩ := hmem
      exact hsep b hb c hc hcs.symm
    rw [h3 _ hnot d, groups_sum_eq _ (fun c => decide (c.DestinationAddress = b.DestinationAddress))
      (fun s c => amountOf (shareOf (st.bank.GetAllBalances s) c.Rate) d)]
    congr 2
    apply List.map_congr_left
    intro c _
    exact amountOf_shareOf_snapshot st.bank c.SourceAddress c.Rate d

/-! ## Claims on the collector -/

/-- C7 (as stated, refuted): on accepted parameters with `EpochBlocks = 1`, (i) two
active budgets of 50% from one source holding 10 stake to one and the same
destination leave that destination with a gain of 10, not of `floor(10 · 0.5) = 5`;
(ii) a destination that is itself the source of an active budget of 100% ends the
block with nothing, not with a gain of `floor(10 · 1) = 10`. -/
theorem collectBudgets_gain_counterexample :
    (ValidateBudgets anyAddress [] (Value.budgets sharedDestinationState.params.Budgets) = none ∧
      (CollectibleBudgets sharedDestinationState.params.Budgets 50).map (fun b => b.Name)
        = ["budget1", "budget2"] ∧
      shareAmount (sharedDestinationState.bank.balance "S" "stake") 500000000000000000 = 5 ∧
      sharedDestinationState.bank.balance "D" "stake" = 0 ∧
      balancesAfter (CollectBudgets sharedDestinationState 50 1) "D" = some [("stake", 10)]) ∧
    (ValidateBudgets anyAddress [] (Value.budgets chainedState.params.Budgets) = none ∧
      (CollectibleBudgets chainedState.params.Budgets 50).map (fun b => b.Name)
        = ["budget1", "budget2"] ∧
      shareAmount (chainedState.bank.balance "S" "stake") 1000000000000000000 = 10 ∧
      chainedState.bank.balance "D" "stake" = 4 ∧
      balancesAfter (CollectBudgets chainedState 50 1) "D" = some []) := by
  refine ⟨⟨by decide, by decide, by decide, by decide, by decide⟩,
    ⟨by decide, by decide, by decide, by decide, by decide⟩⟩

/-- C7 (amended): after `CollectBudgets` on accepted parameters with
`EpochBlocks > 0`, on a block whose height is a multiple of `EpochBlocks`, and when
no active budget pays into the source of an active budget, the collection succeeds
and the destination of every active budget `b` has gained, per denomination, the
sum over the active budgets `c` with that destination of
`floor(bal_pre(source c) · rate(c))`, the balances being those read before any
transfer of the block; when `b` is the only active budget with its destination
the gain is exactly `floor(bal_pre(source b) · rate(b))`. -/
theorem collectBudgets_destination_gain (wf : String → Bool) (seed : List Nat) (st : State)
    (blockTime blockHeight : Int)
    (hacc : ValidateBudgets wf seed (Value.budgets st.params.Budgets) = none)
    (hep : 0 < st.params.EpochBlocks)
    (hcad : blockHeight % (st.params.EpochBlocks : Int) = 0)
    (hsep : ∀ b ∈ CollectibleBudgets st.params.Budgets blockTime,
      ∀ c ∈ CollectibleBudgets st.params.Budgets blockTime,
        b.DestinationAddress ≠ c.SourceAddress) :
    ∃ st', CollectBudgets st blockTime blockHeight = Except.ok st' ∧
      (∀ b ∈ CollectibleBudgets st.params.Budgets blockTime, ∀ d,
        st'.bank.balance b.DestinationAddress d = st.bank.balance b.DestinationAddress d +
          (((CollectibleBudgets st.params.Budgets blockTime).filter
              (fun c => c.DestinationAddress = b.DestinationAddress)).map
            (fun c => shareAmount (amountOf (st.bank.GetAllBalances c.SourceAddress) d)
              c.Rate)).sum) ∧
      (∀ b ∈ CollectibleBudgets st.params.Budgets blockTime,
        (∀ c ∈ CollectibleBudgets st.params.Budgets blockTime,
          c.DestinationAddress = b.DestinationAddress → c = b) →
        ∀ d, st'.bank.balance b.DestinationAddress d =
          st.bank.balance b.DestinationAddress d +
            shareAmount (amountOf (st.bank.GetAllBalances b.SourceAddress) d) b.Rate) := by
  obtain ⟨st', h1, h2⟩ := collectBudgets_gain wf seed st blockTime blockHeight hacc hep hcad hsep
  refine ⟨st', h1, h2, ?_⟩
  intro b hb huniq d
  rw [h2 b hb d]
  have hnd : (CollectibleBudgets st.params.Budgets blockTime).Nodup := by
    rw [collectibleBudgets_eq_filter]
    exact (List.Nodup.of_map _ ((validateBudgets_none_iff wf seed _).1 hacc).1).filter _
  have hfilter : (CollectibleBudgets st.params.Budgets blockTime).filter
      (fun c => c.DestinationAddress = b.DestinationAddress) = [b] := by
    have hnd2 := hnd.filter (fun c => decide (c.DestinationAddress = b.DestinationAddress))
    have hmem : b ∈ (CollectibleBudgets st.params.Budgets blockTime).filter
        (fun c => decide (c.DestinationAddress = b.DestinationAddress)) :=
      List.mem_filter.2 ⟨hb, by simp⟩
    have hall : ∀ c ∈ (CollectibleBudgets st.params.Budgets blockTime).filter
        (fun c => decide (c.DestinationAddress = b.DestinationAddress)), c = b := by
      intro c hc
      obtain ⟨hc1, hc2⟩ := List.mem_filter.1 hc
      exact huniq c hc1 (by simpa using hc2)
    generalize (CollectibleBudgets st.params.Budgets blockTime).filter
        (fun c => decide (c.DestinationAddress = b.DestinationAddress)) = L
      at hnd2 hmem hall
    match L, hnd2, hmem, hall with
    | [], _, hmem, _ => simp at hmem
    | [c], _, _, hall => rw [hall c (List.mem_cons_self _ _)]
    | c :: e :: rest, hnd2, _, hall =>
      have e1 := hall c (List.mem_cons_self _ _)
      have e2 := hall e (List.mem_cons_of_mem _ (List.mem_cons_self _ _))
      rw [e1, e2] at hnd2
      simp at hnd2
  rw [hfilter]
  simp

/-- C7 witness: the keeper test "basic budgets case": two budgets of 50% on a
source holding `10^9` of each asset deliver `5 · 10^8` of each asset to each of
their destinations and leave the source empty. -/
theorem collectBudgets_destination_gain_witness :
    ValidateBudgets anyAddress [] (Value.budgets (suiteState 1).params.Budgets) = none ∧
    balancesAfter (CollectBudgets (suiteState 1) 50 1) "destination0" =
      some [("denom1", 500000000), ("denom2", 500000000), ("denom3", 500000000),
        ("stake", 500000000)] ∧
    balancesAfter (CollectBudgets (suiteState 1) 50 1) "destination1" =
      some [("denom1", 500000000), ("denom2", 500000000), ("denom3", 500000000),
        ("stake", 500000000)] ∧
    balancesAfter (CollectBudgets (suiteState 1) 50 1) "source0" = some [] ∧
    ∃ st', CollectBudgets (suiteState 1) 50 1 = Except.ok st' ∧
      (∀ b ∈ CollectibleBudgets (suiteState 1).params.Budgets 50, ∀ d,
        st'.bank.balance b.DestinationAddress d =
          (suiteState 1).bank.balance b.DestinationAddress d +
          (((CollectibleBudgets (suiteState 1).params.Budgets 50).filter
              (fun c => c.DestinationAddress = b.DestinationAddress)).map
            (fun c => shareAmount
              (amountOf ((suiteState 1).bank.GetAllBalances c.SourceAddress) d) c.Rate)).sum) ∧
      (∀ b ∈ CollectibleBudgets (suiteState 1).params.Budgets 50,
        (∀ c ∈ CollectibleBudgets (suiteState 1).params.Budgets 50,
          c.DestinationAddress = b.DestinationAddress → c = b) →
        ∀ d, st'.bank.balance b.DestinationAddress d =
          (suiteState 1).bank.balance b.DestinationAddress d +
            shareAmount (amountOf ((suiteState 1).bank.GetAllBalances b.SourceAddress) d)
              b.Rate) :=
  ⟨by decide, by decide, by decide, by decide,
    collectBudgets_destination_gain anyAddress [] (suiteState 1) 50 1
      (by decide) (by decide) (by decide) (by decide)⟩

/-- C8: on parameters accepted by `ValidateBudgets`, for every block time, source
and balance (a coin bag with one entry per denomination), the shares of the
budgets of the source that are active at that time sum, per denomination, to at
most the balance; and `CollectBudgets` succeeds from every state with such
parameters, that is, no transfer asks for more than the source holds. -/
theorem collectBudgets_no_overdraw (wf : String → Bool) (seed : List Nat) (st : State)
    (hacc : ValidateBudgets wf seed (Value.budgets st.params.Budgets) = none) :
    (∀ (t : Int) (s : String) (bal : Coins), (bal.map Prod.fst).Nodup → ∀ d,
      (((budgetsOfSource s st.params.Budgets).filter (Budget.activeAt t)).map
        (fun b => amountOf (shareOf bal b.Rate) d)).sum ≤ amountOf bal d) ∧
    (∀ (t : Int) (s : String) (n : Nat),
      (((budgetsOfSource s st.params.Budgets).filter (Budget.activeAt t)).map
        (fun b => shareAmount n b.Rate)).sum ≤ n) ∧
    (∀ blockTime blockHeight : Int,
      ∃ st', CollectBudgets st blockTime blockHeight = Except.ok st') := by
  obtain ⟨_, hvalid, hw⟩ := (validateBudgets_none_iff wf seed _).1 hacc
  have hnn : ∀ (t : Int) (s : String),
      ∀ b ∈ (budgetsOfSource s st.params.Budgets).filter (Budget.activeAt t), 0 ≤ b.Rate := by
    intro t s b hb
    have hb1 := ((mem_budgetsOfSource _ _ _).1 (List.mem_filter.1 hb).1).1
    exact (validate_none_bounds wf b (hvalid b hb1)).1
  have hsum : ∀ (t : Int) (s : String) (n : Nat),
      (((budgetsOfSource s st.params.Budgets).filter (Budget.activeAt t)).map
        (fun b => shareAmount n b.Rate)).sum ≤ n := fun t s n =>
    sum_shareAmount_le n _ (hnn t s) (windowRatesOk_activeRate wf _ hvalid hw s t)
  refine ⟨?_, hsum, ?_⟩
  · intro t s bal hbal d
    have h1 : ((budgetsOfSource s st.params.Budgets).filter (Budget.activeAt t)).map
          (fun b => amountOf (shareOf bal b.Rate) d) =
        ((budgetsOfSource s st.params.Budgets).filter (Budget.activeAt t)).map
          (fun b => shareAmount (amountOf bal d) b.Rate) := by
      apply List.map_congr_left
      intro b _
      exact amountOf_shareOf bal b.Rate hbal d
    rw [h1]
    exact hsum t s _
  · intro blockTime blockHeight
    unfold CollectBudgets
    by_cases h0 : st.params.EpochBlocks = 0
    · exact ⟨st, by rw [if_pos h0]⟩
    · rw [if_neg h0]
      by_cases h1 : blockHeight % (st.params.EpochBlocks : Int) ≠ 0
      · exact ⟨st, by rw [if_pos h1]⟩
      · rw [if_neg h1]
        by_cases h2 : CollectibleBudgets st.params.Budgets blockTime = []
        · exact ⟨st, by rw [if_pos h2]⟩
        · rw [if_neg h2]
          obtain ⟨hself, hrate⟩ := accepted_groups wf seed st.params.Budgets blockTime hacc
          obtain ⟨st', h3, _⟩ := collectSources_ok _ st hself hrate
          exact ⟨st', h3⟩

/-- C8 witness: the state of the keeper test "basic budgets case". -/
theorem collectBudgets_no_overdraw_witness :
    ValidateBudgets anyAddress [] (Value.budgets (suiteState 1).params.Budgets) = none ∧
    ((∀ (t : Int) (s : String) (bal : Coins), (bal.map Prod.fst).Nodup → ∀ d,
      (((budgetsOfSource s (suiteState 1).params.Budgets).filter (Budget.activeAt t)).map
        (fun b => amountOf (shareOf bal b.Rate) d)).sum ≤ amountOf bal d) ∧
    (∀ (t : Int) (s : String) (n : Nat),
      (((budgetsOfSource s (suiteState 1).params.Budgets).filter (Budget.activeAt t)).map
        (fun b => shareAmount n b.Rate)).sum ≤ n) ∧
    (∀ blockTime blockHeight : Int,
      ∃ st', CollectBudgets (suiteState 1) blockTime blockHeight = Except.ok st')) :=
  ⟨by decide, collectBudgets_no_overdraw anyAddress [] (suiteState 1) (by decide)⟩

/-! ## Claims on the validators: types, variants, precedence, order -/

/-- C14: `ValidateEpochBlocks` returns nil exactly when its argument is a `uint32`
(for every such value, 0 included) and returns the "invalid parameter type" error
for a value of any other type. -/
theorem validateEpochBlocks_iff_uint32 (v : Value) :
    (ValidateEpochBlocks v = none ↔ ∃ n, v = Value.uint32 n) ∧
    ((¬ ∃ n, v = Value.uint32 n) → ValidateEpochBlocks v = some Err.InvalidParameterType) ∧
    (∀ n, ValidateEpochBlocks (Value.uint32 n) = none) ∧
    ValidateEpochBlocks (Value.uint32 0) = none := by
  refine ⟨?_, ?_, fun _ => rfl, rfl⟩
  · cases v with
    | budgets bs => simp [ValidateEpochBlocks]
    | uint32 n => simp [ValidateEpochBlocks]
    | other t => simp [ValidateEpochBlocks]
  · intro h
    cases v with
    | budgets bs => rfl
    | uint32 n => exact absurd ⟨n, rfl⟩ h
    | other t => rfl

/-- C20: `Params.Validate` equals `ValidateBudgets` on the budgets of the
parameters, so parameters that differ only in `EpochBlocks` (0 included) get the
same result, and are accepted or rejected alike whatever the visiting orders of
the source map. -/
theorem paramsValidate_budgets_only (wf : String → Bool) (seed : List Nat) (p : Params) :
    p.Validate wf seed = ValidateBudgets wf seed (Value.budgets p.Budgets) ∧
    (∀ e : Nat, Params.Validate wf seed { p with EpochBlocks := e } = p.Validate wf seed) ∧
    (∀ (e : Nat) (seed2 : List Nat),
      Params.Validate wf seed2 { p with EpochBlocks := e } = none ↔ p.Validate wf seed = none) := by
  have h1 : ∀ (s : List Nat) (q : Params),
      q.Validate wf s = ValidateBudgets wf s (Value.budgets q.Budgets) := by
    intro s q
    unfold Params.Validate
    cases ValidateBudgets wf s (Value.budgets q.Budgets) <;> rfl
  refine ⟨h1 seed p, fun e => by rw [h1, h1], fun e seed2 => ?_⟩
  rw [h1, h1, validateBudgets_none_iff, validateBudgets_none_iff]

theorem checkSources_eq_onePhase (gs : List (String × BudgetsBySource))
    (h : ∀ p ∈ gs, p.2.TotalRate ≤ OneDec →
      checkOverlaps p.1 p.2.Budgets p.2.Budgets = none) :
    checkSources gs = checkSourcesOnePhase gs := by
  induction gs with
  | nil => rfl
  | cons p rest ih =>
    obtain ⟨addr, g⟩ := p
    have ih2 := ih (fun q hq => h q (List.mem_cons_of_mem _ hq))
    simp only [checkSources, checkSourcesOnePhase]
    by_cases hg : g.TotalRate > OneDec
    · rw [if_pos hg, ih2]
    · rw [if_neg hg, h (addr, g) (List.mem_cons_self _ _) (not_lt.1 hg), ih2]

theorem valid_group_overlap_le (wf : String → Bool) (bs : List Budget)
    (hvalid : ∀ b ∈ bs, b.Validate wf = none) (p : String × BudgetsBySource)
    (hp : p ∈ GetBudgetsBySourceMap bs) (hle : p.2.TotalRate ≤ OneDec) :
    ∀ b ∈ p.2.Budgets, overlapTotalRate b p.2.Budgets ≤ OneDec := by
  have hg := ((mem_GetBudgetsBySourceMap bs p).1 hp).2
  intro b _
  rw [overlapTotalRate_eq]
  rw [hg] at hle ⊢
  simp only at hle ⊢
  refine le_trans (sumRates_filter_le _ _ ?_) hle
  intro c hc
  exact (validate_none_bounds wf c (hvalid c ((mem_budgetsOfSource _ _ _).1 hc).1)).1

theorem onePhase_same_result (wf : String → Bool) (seed : List Nat) (v : Value) :
    ValidateBudgets wf seed v = ValidateBudgetsOnePhase wf seed v := by
  cases v with
  | uint32 n => rfl
  | other t => rfl
  | budgets bs =>
    simp only [ValidateBudgets, ValidateBudgetsOnePhase]
    cases hv : validateNames wf [] bs with
    | some e => rfl
    | none =>
      have hvalid := ((validateNames_eq_none_iff wf [] bs).1 hv).1
      simp only []
      apply checkSources_eq_onePhase
      intro p hp hle
      rw [checkOverlaps_eq_none_iff]
      exact valid_group_overlap_le wf bs hvalid p (((mapRange_perm seed _).mem_iff).1 hp) hle

/-- C15: `ValidateBudgets` and its one-phase variant (guard `TotalRate > 1` dropped,
overlap scan on every source group) return the same result on every input, and
accept the same budget lists whatever the visiting orders of the source map;
after the first loop has passed, a source group whose rates sum to at most one
has no budget whose overlapping rates sum to more than one. -/
theorem validateBudgets_eq_onePhase (wf : String → Bool) (seed : List Nat) :
    (∀ v, ValidateBudgets wf seed v = ValidateBudgetsOnePhase wf seed v) ∧
    (∀ (seed2 : List Nat) (bs : List Budget),
      ValidateBudgets wf seed (Value.budgets bs) = none ↔
        ValidateBudgetsOnePhase wf seed2 (Value.budgets bs) = none) ∧
    (∀ bs, validateNames wf [] bs = none → ∀ p ∈ GetBudgetsBySourceMap bs,
      p.2.TotalRate ≤ OneDec → ∀ b ∈ p.2.Budgets, overlapTotalRate b p.2.Budgets ≤ OneDec) := by
  refine ⟨onePhase_same_result wf seed, ?_, ?_⟩
  · intro seed2 bs
    rw [← onePhase_same_result wf seed2, validateBudgets_none_iff,
      validateBudgets_none_iff]
  · intro bs hv p hp hle
    exact valid_group_overlap_le wf bs ((validateNames_eq_none_iff wf [] bs).1 hv).1 p hp hle

theorem validate_err_kind (wf : String → Bool) (b : Budget) (e : Err)
    (h : b.Validate wf = some e) :
    (∀ n, e ≠ Err.ErrDuplicateBudgetName n) ∧
      (∀ a r, e ≠ Err.ErrInvalidTotalBudgetRate a r) := by
  unfold Budget.Validate at h
  split_ifs at h <;> simp only [Option.some.injEq, reduceCtorEq] at h <;>
    subst h <;> exact ⟨fun _ => by simp, fun _ _ => by simp⟩

theorem validateNames_append (wf : String → Bool) (names : List String)
    (pre rest : List Budget) (hpre : ∀ c ∈ pre, c.Validate wf = none)
    (hnd : (pre.map (fun b => b.Name)).Nodup) (hdis : ∀ c ∈ pre, c.Name ∉ names) :
    ∃ names2, (∀ n, n ∈ names2 ↔ n ∈ names ∨ n ∈ pre.map (fun b => b.Name)) ∧
      validateNames wf names (pre ++ rest) = validateNames wf names2 rest := by
  induction pre generalizing names with
  | nil => exact ⟨names, by simp, rfl⟩
  | cons c pre2 ih =>
    have hc := hpre c (List.mem_cons_self _ _)
    have hcn := hdis c (List.mem_cons_self _ _)
    simp only [List.map_cons, List.nodup_cons, List.mem_map, not_exists, not_and] at hnd
    obtain ⟨names2, h1, h2⟩ := ih (c.Name :: names)
      (fun d hd => hpre d (List.mem_cons_of_mem _ hd)) hnd.2
      (fun d hd hmem => by
        rcases List.mem_cons.1 hmem with h | h
        · exact hnd.1 d hd h
        · exact hdis d (List.mem_cons_of_mem _ hd) h)
    refine ⟨names2, ?_, ?_⟩
    · intro n
      rw [h1 n]
      simp only [List.mem_cons, List.map_cons]
      tauto
    · simp only [List.cons_append, validateNames, hc, hcn, if_false]
      exact h2

theorem validateNames_some_cases (wf : String → Bool) (names : List String) (bs : List Budget)
    (e : Err) (h : validateNames wf names bs = some e) :
    (∃ b ∈ bs, b.Validate wf = some e) ∨ (∃ n, e = Err.ErrDuplicateBudgetName n) := by
  induction bs generalizing names with
  | nil => simp [validateNames] at h
  | cons b rest ih =>
    simp only [validateNames] at h
    cases hb : b.Validate wf with
    | some e2 =>
      rw [hb] at h
      simp only [Option.some.injEq] at h
      subst h
      exact Or.inl ⟨b, List.mem_cons_self _ _, hb⟩
    | none =>
      rw [hb] at h
      simp only [] at h
      by_cases hn : b.Name ∈ names
      · rw [if_pos hn] at h
        simp only [Option.some.injEq] at h
        exact Or.inr ⟨b.Name, h.symm⟩
      · rw [if_neg hn] at h
        rcases ih _ h with ⟨c, hc, hce⟩ | h2
        · exact Or.inl ⟨c, List.mem_cons_of_mem _ hc, hce⟩
        · exact Or.inr h2

/-- C16: error precedence in `ValidateBudgets`.  At the first position of the list
whose budget fails `Budget.Validate` or repeats the name of an earlier budget
(every budget before it is valid and the names before it are pairwise distinct),
the result is the `Validate` error of that budget if it has one, else the
duplicate-name error wrapping its name; and an `ErrInvalidTotalBudgetRate` error
is returned only when every budget is valid and all names are distinct. -/
theorem validateBudgets_first_defect (wf : String → Bool) (seed : List Nat) (bs : List Budget) :
    (∀ pre b post, bs = pre ++ b :: post → (∀ c ∈ pre, c.Validate wf = none) →
      (pre.map (fun c => c.Name)).Nodup →
      (∀ e, b.Validate wf = some e → ValidateBudgets wf seed (Value.budgets bs) = some e) ∧
      (b.Validate wf = none → b.Name ∈ pre.map (fun c => c.Name) →
        ValidateBudgets wf seed (Value.budgets bs) =
          some (Err.ErrDuplicateBudgetName b.Name))) ∧
    (∀ addr r, ValidateBudgets wf seed (Value.budgets bs) =
        some (Err.ErrInvalidTotalBudgetRate addr r) →
      (∀ c ∈ bs, c.Validate wf = none) ∧ (bs.map (fun c => c.Name)).Nodup) := by
  constructor
  · intro pre b post hbs hpre hnd
    obtain ⟨names2, h1, h2⟩ := validateNames_append wf [] pre (b :: post) hpre hnd (by simp)
    rw [← hbs] at h2
    constructor
    · intro e he
      simp only [ValidateBudgets, h2, validateNames, he]
    · intro hb hmem
      have : b.Name ∈ names2 := (h1 b.Name).2 (Or.inr hmem)
      simp only [ValidateBudgets, h2, validateNames, hb, this, if_true]
  · intro addr r h
    simp only [ValidateBudgets] at h
    cases hv : validateNames wf [] bs with
    | none =>
      have := (validateNames_eq_none_iff wf [] bs).1 hv
      exact ⟨this.1, this.2.2⟩
    | some e =>
      rw [hv] at h
      simp only [Option.some.injEq] at h
      subst h
      rcases validateNames_some_cases wf [] bs _ hv with ⟨c, _, hc⟩ | ⟨n, hn⟩
      · exact absurd rfl ((validate_err_kind wf c _ hc).2 addr r)
      · simp at hn

theorem sumRates_perm (l1 l2 : List Budget) (h : l1.Perm l2) : sumRates l1 = sumRates l2 := by
  unfold sumRates
  exact (h.map _).sum_eq

theorem windowRatesOk_of_perm (bs1 bs2 : List Budget) (h : bs1.Perm bs2)
    (hw : windowRatesOk bs1) : windowRatesOk bs2 := by
  intro b hb hgt
  have hG : ∀ s, sumRates (budgetsOfSource s bs1) = sumRates (budgetsOfSource s bs2) :=
    fun s => sumRates_perm _ _ (h.filter _)
  have hO : overlapRate bs1 b = overlapRate bs2 b :=
    sumRates_perm _ _ ((h.filter _).filter _)
  rw [← hO]
  exact hw b (h.mem_iff.2 hb) (by rw [hG]; exact hgt)

/-- C17: acceptance does not depend on the order of the budgets: for a permutation
`bs2` of `bs1`, `ValidateBudgets` returns nil on the one iff it returns nil on the
other, whatever the visiting orders of the source map. -/
theorem validateBudgets_perm_invariant (wf : String → Bool) (seed1 seed2 : List Nat)
    (bs1 bs2 : List Budget) (h : bs2.Perm bs1) :
    ValidateBudgets wf seed1 (Value.budgets bs1) = none ↔
      ValidateBudgets wf seed2 (Value.budgets bs2) = none := by
  rw [validateBudgets_none_iff, validateBudgets_none_iff]
  constructor
  · rintro ⟨h1, h2, h3⟩
    exact ⟨((h.map _).nodup_iff).2 h1, fun b hb => h2 b (h.mem_iff.1 hb),
      windowRatesOk_of_perm bs1 bs2 h.symm h3⟩
  · rintro ⟨h1, h2, h3⟩
    exact ⟨((h.map _).nodup_iff).1 h1, fun b hb => h2 b (h.mem_iff.2 hb),
      windowRatesOk_of_perm bs2 bs1 h h3⟩

/-- C17 witness: the two budgets of the keeper test "add budget 4 without date
range overlap" are accepted in reverse order as well. -/
theorem validateBudgets_perm_invariant_witness :
    farmingBudgets14.reverse.Perm farmingBudgets14 ∧
    ValidateBudgets anyAddress [] (Value.budgets farmingBudgets14.reverse) = none ∧
    (ValidateBudgets anyAddress [] (Value.budgets farmingBudgets14) = none ↔
      ValidateBudgets anyAddress [] (Value.budgets farmingBudgets14.reverse) = none) :=
  ⟨List.reverse_perm _, by decide,
    validateBudgets_perm_invariant anyAddress [] [] farmingBudgets14 farmingBudgets14.reverse
      (List.reverse_perm _)⟩

theorem sumRates_sublist_le (l1 l2 : List Budget) (h : l1.Sublist l2)
    (hnn : ∀ c ∈ l2, 0 ≤ c.Rate) : sumRates l1 ≤ sumRates l2 := by
  induction h with
  | slnil => exact le_refl _
  | cons c _ ih =>
    have h1 := ih (fun d hd => hnn d (List.mem_cons_of_mem _ hd))
    have h2 := hnn c (List.mem_cons_self _ _)
    simp only [sumRates, List.map_cons, List.sum_cons] at h1 ⊢
    omega
  | cons₂ c _ ih =>
    have h1 := ih (fun d hd => hnn d (List.mem_cons_of_mem _ hd))
    simp only [sumRates, List.map_cons, List.sum_cons] at h1 ⊢
    omega

theorem windowRatesOk_of_sublist (wf : String → Bool) (bs1 bs2 : List Budget)
    (h : bs1.Sublist bs2) (hvalid : ∀ b ∈ bs2, b.Validate wf = none)
    (hw : windowRatesOk bs2) : windowRatesOk bs1 := by
  intro b hb hgt
  have hnn : ∀ (l : List Budget), (∀ c ∈ l, c ∈ bs2) → ∀ c ∈ l, 0 ≤ c.Rate :=
    fun l hl c hc => (validate_none_bounds wf c (hvalid c (hl c hc))).1
  have hG : sumRates (budgetsOfSource b.SourceAddress bs1) ≤
      sumRates (budgetsOfSource b.SourceAddress bs2) :=
    sumRates_sublist_le _ _ (h.filter _)
      (hnn _ (fun c hc => ((mem_budgetsOfSource _ _ _).1 hc).1))
  have hO : overlapRate bs1 b ≤ overlapRate bs2 b :=
    sumRates_sublist_le _ _ ((h.filter _).filter _)
      (hnn _ (fun c hc => ((mem_budgetsOfSource _ _ _).1 (List.mem_filter.1 hc).1).1))
  exact le_trans hO (hw b (h.subset hb) (lt_of_lt_of_le hgt hG))

/-- C18: acceptance is closed under removal: if `ValidateBudgets` returns nil on
`bs` it returns nil on every list obtained by deleting budgets from `bs`,
whatever the visiting orders of the source map; the empty list is accepted. -/
theorem validateBudgets_sublist_closed (wf : String → Bool) (seed1 seed2 : List Nat)
    (bs bs2 : List Budget) (hsub : bs2.Sublist bs)
    (hacc : ValidateBudgets wf seed1 (Value.budgets bs) = none) :
    ValidateBudgets wf seed2 (Value.budgets bs2) = none ∧
      ValidateBudgets wf seed2 (Value.budgets []) = none := by
  obtain ⟨h1, h2, h3⟩ := (validateBudgets_none_iff wf seed1 bs).1 hacc
  constructor
  · rw [validateBudgets_none_iff]
    exact ⟨(hsub.map _).nodup h1, fun b hb => h2 b (hsub.subset hb),
      windowRatesOk_of_sublist wf bs2 bs hsub h2 h3⟩
  · rw [validateBudgets_none_iff]
    exact ⟨List.nodup_nil, fun b hb => by simp at hb, fun b hb => by simp at hb⟩

/-- C18 witness: the accepted list of the keeper test "add budget 4 without date
range overlap" stays accepted when its first budget is removed, and the empty
list of the test "remove all budgets" is accepted. -/
theorem validateBudgets_sublist_closed_witness :
    (farmingBudgets14.drop 1).Sublist farmingBudgets14 ∧
    ValidateBudgets anyAddress [] (Value.budgets farmingBudgets14) = none ∧
    ValidateBudgets anyAddress [] (Value.budgets (farmingBudgets14.drop 1)) = none ∧
    ValidateBudgets anyAddress [] (Value.budgets []) = none :=
  ⟨List.drop_sublist _ _, by decide,
    validateBudgets_sublist_closed anyAddress [] [] farmingBudgets14 (farmingBudgets14.drop 1)
      (List.drop_sublist _ _) (by decide)⟩

/-- C19: the verdict of `ValidateBudgets` does not depend on the order in which the
source groups are visited: for any two visiting orders the two runs both return
nil or both return an error, and two errors are equal or are both
`ErrInvalidTotalBudgetRate` errors. -/
theorem validateBudgets_order_independent (wf : String → Bool) (seed1 seed2 : List Nat)
    (bs : List Budget) :
    (ValidateBudgets wf seed1 (Value.budgets bs) = none ↔
      ValidateBudgets wf seed2 (Value.budgets bs) = none) ∧
    (∀ e1 e2, ValidateBudgets wf seed1 (Value.budgets bs) = some e1 →
      ValidateBudgets wf seed2 (Value.budgets bs) = some e2 →
      e1 = e2 ∨ ∃ a1 r1 a2 r2, e1 = Err.ErrInvalidTotalBudgetRate a1 r1 ∧
        e2 = Err.ErrInvalidTotalBudgetRate a2 r2) := by
  constructor
  · rw [validateBudgets_none_iff, validateBudgets_none_iff]
  · intro e1 e2 h1 h2
    simp only [ValidateBudgets] at h1 h2
    cases hv : validateNames wf [] bs with
    | some e =>
      rw [hv] at h1 h2
      simp only [Option.some.injEq] at h1 h2
      exact Or.inl (h1.symm.trans h2)
    | none =>
      rw [hv] at h1 h2
      simp only [] at h1 h2
      obtain ⟨p1, _, _, b1, _, _, he1⟩ := checkSources_eq_some _ _ h1
      obtain ⟨p2, _, _, b2, _, _, he2⟩ := checkSources_eq_some _ _ h2
      exact Or.inr ⟨_, _, _, _, he1, he2⟩

/-- The payload of the rate error depends on the visiting order: with two
overloaded sources the error names the source that is visited first. -/
theorem validateBudgets_order_changes_payload :
    ValidateBudgets anyAddress [] (Value.budgets twoOverloadedSources) =
      some (Err.ErrInvalidTotalBudgetRate "sourceA" 2000000000000000000) ∧
    ValidateBudgets anyAddress [1] (Value.budgets twoOverloadedSources) =
      some (Err.ErrInvalidTotalBudgetRate "sourceB" 2000000000000000000) := by
  constructor <;> decide

/-! ## Claims on the counter store and on governance edits -/

theorem writeAll_absent (st : State) (n : String) (ws : List CounterWrite)
    (habs : st.totalCollected n = none) (hws : ∀ w ∈ ws, w.name ≠ n) :
    (st.writeAll ws).GetTotalCollectedCoins n = none := by
  induction ws generalizing st with
  | nil => exact habs
  | cons w rest ih =>
    have hw := hws w (List.mem_cons_self _ _)
    have hstep : (st.write w).totalCollected n = none := by
      cases w with
      | set m c =>
        simp only [CounterWrite.name] at hw
        simp only [State.write, State.SetTotalCollectedCoins]
        rw [if_neg (fun e => hw e.symm)]
        exact habs
      | add m c =>
        simp only [CounterWrite.name] at hw
        simp only [State.write, State.AddTotalCollectedCoins, State.SetTotalCollectedCoins]
        rw [if_neg (fun e => hw e.symm)]
        exact habs
    exact ih (st.write w) hstep (fun v hv => hws v (List.mem_cons_of_mem _ hv))

/-- C12: laws of the counter store.  A name that is absent and is not written
stays absent under any sequence of writes on other names; after `Set(n, c)`,
`Get(n)` returns `c`; `Add(n, c)` leaves the state that `Set(n, Get(n) + c)`
leaves, an absent counter read as empty; neither `Set` nor `Add` on `n` changes
the counter of another name `m`, nor the parameters. -/
theorem counterStore_laws (st : State) (n m : String) (c : Coins) (hm : m ≠ n) :
    (∀ ws : List CounterWrite, st.GetTotalCollectedCoins n = none → (∀ w ∈ ws, w.name ≠ n) →
      (st.writeAll ws).GetTotalCollectedCoins n = none) ∧
    (st.SetTotalCollectedCoins n c).GetTotalCollectedCoins n = some c ∧
    st.AddTotalCollectedCoins n c =
      st.SetTotalCollectedCoins n (addCoins ((st.GetTotalCollectedCoins n).getD []) c) ∧
    (st.AddTotalCollectedCoins n c).GetTotalCollectedCoins n =
      some (addCoins ((st.GetTotalCollectedCoins n).getD []) c) ∧
    (st.SetTotalCollectedCoins n c).GetTotalCollectedCoins m = st.GetTotalCollectedCoins m ∧
    (st.AddTotalCollectedCoins n c).GetTotalCollectedCoins m = st.GetTotalCollectedCoins m ∧
    (st.SetTotalCollectedCoins n c).params = st.params ∧
    (st.AddTotalCollectedCoins n c).params = st.params := by
  refine ⟨fun ws habs hws => writeAll_absent st n ws habs hws, ?_, rfl, ?_, ?_, ?_, rfl, rfl⟩
  · simp [State.SetTotalCollectedCoins, State.GetTotalCollectedCoins]
  · simp [State.AddTotalCollectedCoins, State.SetTotalCollectedCoins,
      State.GetTotalCollectedCoins]
  · simp [State.SetTotalCollectedCoins, State.GetTotalCollectedCoins, hm]
  · simp [State.AddTotalCollectedCoins, State.SetTotalCollectedCoins,
      State.GetTotalCollectedCoins, hm]

/-- C12 witness: the keeper test `TestGetSetTotalCollectedCoins`: `budget1` is
absent at first; after `Set(budget1, 1000000denom1)` it holds that bag; after
`Add(budget1, 1000000denom2)` it holds both coins; after `Add(budget2,
1000000denom1)` on the absent `budget2` that counter holds the coin. -/
theorem counterStore_laws_witness :
    ("budget2" ≠ "budget1") ∧
    (suiteState 1).GetTotalCollectedCoins "budget1" = none ∧
    (((suiteState 1).SetTotalCollectedCoins "budget1" [("denom1", 1000000)]).AddTotalCollectedCoins
      "budget1" [("denom2", 1000000)]).GetTotalCollectedCoins "budget1" =
        some [("denom1", 1000000), ("denom2", 1000000)] ∧
    ((((suiteState 1).SetTotalCollectedCoins "budget1" [("denom1", 1000000)]).AddTotalCollectedCoins
      "budget1" [("denom2", 1000000)]).AddTotalCollectedCoins
      "budget2" [("denom1", 1000000)]).GetTotalCollectedCoins "budget2" =
        some [("denom1", 1000000)] ∧
    ((∀ ws : List CounterWrite, (suiteState 1).GetTotalCollectedCoins "budget1" = none →
      (∀ w ∈ ws, w.name ≠ "budget1") →
      ((suiteState 1).writeAll ws).GetTotalCollectedCoins "budget1" = none) ∧
    ((suiteState 1).SetTotalCollectedCoins "budget1" [("denom1", 1000000)]).GetTotalCollectedCoins
      "budget1" = some [("denom1", 1000000)] ∧
    (suiteState 1).AddTotalCollectedCoins "budget1" [("denom1", 1000000)] =
      (suiteState 1).SetTotalCollectedCoins "budget1"
        (addCoins (((suiteState 1).GetTotalCollectedCoins "budget1").getD [])
          [("denom1", 1000000)]) ∧
    ((suiteState 1).AddTotalCollectedCoins "budget1" [("denom1", 1000000)]).GetTotalCollectedCoins
      "budget1" = some (addCoins (((suiteState 1).GetTotalCollectedCoins "budget1").getD [])
        [("denom1", 1000000)]) ∧
    ((suiteState 1).SetTotalCollectedCoins "budget1" [("denom1", 1000000)]).GetTotalCollectedCoins
      "budget2" = (suiteState 1).GetTotalCollectedCoins "budget2" ∧
    ((suiteState 1).AddTotalCollectedCoins "budget1" [("denom1", 1000000)]).GetTotalCollectedCoins
      "budget2" = (suiteState 1).GetTotalCollectedCoins "budget2" ∧
    ((suiteState 1).SetTotalCollectedCoins "budget1" [("denom1", 1000000)]).params =
      (suiteState 1).params ∧
    ((suiteState 1).AddTotalCollectedCoins "budget1" [("denom1", 1000000)]).params =
      (suiteState 1).params) :=
  ⟨by decide, by decide, by decide, by decide,
    counterStore_laws (suiteState 1) "budget1" "budget2" [("denom1", 1000000)] (by decide)⟩

/-- C13: atomicity of a governance edit of `Budgets`.  If `ValidateBudgets(bs)`
returns an error the edit fails with that error and the state after the edit is
the state before it (so the next block collects as it would have); if it returns
nil the edit succeeds, the stored budgets become `bs` and nothing else changes. -/
theorem governanceEdit_budgets_atomic (wf : String → Bool) (seed : List Nat) (st : State)
    (bs : List Budget) :
    (∀ e, ValidateBudgets wf seed (Value.budgets bs) = some e →
      GovernanceEdit wf seed st KeyBudgets (Value.budgets bs) =
        (some (EditErr.ValidationFailed e), st) ∧
      ∀ blockTime blockHeight,
        CollectBudgets (GovernanceEdit wf seed st KeyBudgets (Value.budgets bs)).2
          blockTime blockHeight = CollectBudgets st blockTime blockHeight) ∧
    (ValidateBudgets wf seed (Value.budgets bs) = none →
      (GovernanceEdit wf seed st KeyBudgets (Value.budgets bs)).1 = none ∧
      (GovernanceEdit wf seed st KeyBudgets (Value.budgets bs)).2.params.Budgets = bs ∧
      (GovernanceEdit wf seed st KeyBudgets (Value.budgets bs)).2.params.EpochBlocks =
        st.params.EpochBlocks ∧
      (GovernanceEdit wf seed st KeyBudgets (Value.budgets bs)).2.bank = st.bank ∧
      (GovernanceEdit wf seed st KeyBudgets (Value.budgets bs)).2.totalCollected =
        st.totalCollected) := by
  have hfind : (Params.ParamSetPairs wf seed).find? (fun pair => pair.key = KeyBudgets) =
      some (ParamSetPair.mk KeyBudgets assignBudgets (ValidateBudgets wf seed)) := by
    simp [Params.ParamSetPairs, List.find?]
  constructor
  · intro e he
    have h1 : GovernanceEdit wf seed st KeyBudgets (Value.budgets bs) =
        (some (EditErr.ValidationFailed e), st) := by
      simp only [GovernanceEdit, hfind, he]
    exact ⟨h1, fun t h => by rw [h1]⟩
  · intro hacc
    have h1 : GovernanceEdit wf seed st KeyBudgets (Value.budgets bs) =
        (none, { st with params := assignBudgets st.params (Value.budgets bs) }) := by
      simp only [GovernanceEdit, hfind, hacc]
    rw [h1]
    exact ⟨rfl, rfl, rfl, rfl, rfl⟩

/-- The keeper test "add budget 3 with invalid total rate case 1" as an edit: with
the two budgets of "add budget 2" stored, the proposal of the three budgets fails
with the rate error, two budgets stay stored and one of them is collectible at
2021-09-30T00:00:00Z. -/
theorem governanceEdit_rejected_case1 :
    (GovernanceEdit anyAddress []
        { suiteState 1 with params := { Budgets := farmingBudgets12, EpochBlocks := 1 } }
        KeyBudgets (Value.budgets farmingBudgets123)).1 =
      some (EditErr.ValidationFailed
        (Err.ErrInvalidTotalBudgetRate inflationPool 1500000000000000000)) ∧
    (GovernanceEdit anyAddress []
        { suiteState 1 with params := { Budgets := farmingBudgets12, EpochBlocks := 1 } }
        KeyBudgets (Value.budgets farmingBudgets123)).2.params.Budgets.length = 2 ∧
    (CollectibleBudgets (GovernanceEdit anyAddress []
        { suiteState 1 with params := { Budgets := farmingBudgets12, EpochBlocks := 1 } }
        KeyBudgets (Value.budgets farmingBudgets123)).2.params.Budgets 1632960000).length = 1 := by
  refine ⟨by decide, by decide, by decide⟩

/-! ## Lemmas on the counters under collection -/

theorem amountOf_addCoin (a : Coins) (c : String × Nat) (d : String) :
    amountOf (addCoin a c) d = amountOf a d + if c.1 = d then c.2 else 0 := by
  obtain ⟨cd, cn⟩ := c
  induction a with
  | nil => simp [addCoin, amountOf]
  | cons e rest ih =>
    obtain ⟨d0, n⟩ := e
    simp only [addCoin]
    by_cases h0 : d0 = cd
    · rw [if_pos h0]
      subst h0
      by_cases hd : d0 = d
      · simp [amountOf, hd]
      · simp [amountOf, hd]
    · rw [if_neg h0]
      by_cases hd : d0 = d
      · subst hd
        simp only [amountOf, if_true]
        rw [if_neg (fun e => h0 e.symm)]
        rfl
      · simp only [amountOf, hd, if_false]
        exact ih

theorem amountOf_addCoins_ge (a s : Coins) (d : String) :
    amountOf a d ≤ amountOf (addCoins a s) d := by
  unfold addCoins
  induction s generalizing a with
  | nil => exact le_refl _
  | cons c rest ih =>
    simp only [List.foldl_cons]
    refine le_trans ?_ (ih (addCoin a c))
    rw [amountOf_addCoin]
    exact Nat.le_add_right _ _

theorem addShares_cons (c : Option Coins) (share : Coins) (rest : List Coins) :
    addShares c (share :: rest) = addShares (some (addCoins (c.getD []) share)) rest := rfl

theorem addShares_append (c : Option Coins) (l1 l2 : List Coins) :
    addShares c (l1 ++ l2) = addShares (addShares c l1) l2 := by
  unfold addShares
  rw [List.foldl_append]

theorem addShares_ge (c : Option Coins) (shares : List Coins) (d : String) :
    amountOf (c.getD []) d ≤ amountOf ((addShares c shares).getD []) d := by
  induction shares generalizing c with
  | nil => exact le_refl _
  | cons s rest ih =>
    rw [addShares_cons]
    refine le_trans ?_ (ih _)
    exact amountOf_addCoins_ge _ _ _

theorem deliveredUnder_cons (n : String) (e : String × Coins) (log : List (String × Coins)) :
    deliveredUnder n (e :: log) =
      if e.1 = n then e.2 :: deliveredUnder n log else deliveredUnder n log := by
  unfold deliveredUnder
  by_cases h : e.1 = n
  · rw [List.filter_cons_of_pos (by simpa using h), if_pos h]
    rfl
  · rw [List.filter_cons_of_neg (by simpa using h), if_neg h]

theorem deliveredUnder_append (n : String) (l1 l2 : List (String × Coins)) :
    deliveredUnder n (l1 ++ l2) = deliveredUnder n l1 ++ deliveredUnder n l2 := by
  unfold deliveredUnder
  rw [List.filter_append, List.map_append]

theorem collectGroup_counters (bal : Coins) (s : String) (budgets : List Budget)
    (st st2 : State) (hrun : collectGroup bal s budgets st = Except.ok st2) (n : String) :
    st2.totalCollected n =
      addShares (st.totalCollected n) (deliveredUnder n (groupDeliveries bal budgets)) := by
  induction budgets generalizing st with
  | nil =>
    simp only [collectGroup, Except.ok.injEq] at hrun
    rw [← hrun]
    rfl
  | cons b rest ih =>
    by_cases he : shareOf bal b.Rate = []
    · rw [collectGroup_cons_empty bal s b rest st he] at hrun
      simp only [groupDeliveries, if_pos he]
      exact ih st hrun
    · simp only [collectGroup, if_neg he] at hrun
      cases hsend : st.bank.SendCoins s b.DestinationAddress (shareOf bal b.Rate) with
      | error err =>
        rw [hsend] at hrun
        simp at hrun
      | ok bank =>
        rw [hsend] at hrun
        simp only [] at hrun
        rw [ih _ hrun]
        simp only [groupDeliveries, if_neg he, deliveredUnder_cons]
        by_cases hn : b.Name = n
        · rw [if_pos hn, addShares_cons]
          simp [State.AddTotalCollectedCoins, State.SetTotalCollectedCoins,
            State.GetTotalCollectedCoins, hn]
        · rw [if_neg hn]
          have hn2 : ¬ n = b.Name := fun e => hn e.symm
          simp [State.AddTotalCollectedCoins, State.SetTotalCollectedCoins, hn2]

theorem collectSources_counters (gs : List (String × BudgetsBySource)) (st st2 : State)
    (hrun : collectSources gs st = Except.ok st2) (n : String) :
    st2.totalCollected n =
      addShares (st.totalCollected n) (deliveredUnder n (sourcesDeliveries gs st)) := by
  induction gs generalizing st with
  | nil =>
    simp only [collectSources, Except.ok.injEq] at hrun
    rw [← hrun]
    rfl
  | cons p rest ih =>
    obtain ⟨s, g⟩ := p
    simp only [collectSources] at hrun
    cases hg : collectGroup (st.bank.GetAllBalances s) s g.Budgets st with
    | error err =>
      rw [hg] at hrun
      simp at hrun
    | ok st1 =>
      rw [hg] at hrun
      simp only [] at hrun
      simp only [sourcesDeliveries, hg]
      rw [deliveredUnder_append, addShares_append, ih st1 hrun,
        collectGroup_counters _ _ _ _ _ hg n]

theorem counters_after_run (st st2 : State) (blockTime blockHeight : Int)
    (hrun : CollectBudgets st blockTime blockHeight = Except.ok st2) (n : String) :
    st2.totalCollected n = addShares (st.totalCollected n)
      (deliveredUnder n (deliveries st blockTime blockHeight)) := by
  unfold CollectBudgets at hrun
  unfold deliveries
  by_cases h0 : st.params.EpochBlocks = 0
  · rw [if_pos h0] at hrun ⊢
    simp only [Except.ok.injEq] at hrun
    rw [← hrun]
    rfl
  · rw [if_neg h0] at hrun ⊢
    by_cases h1 : blockHeight % (st.params.EpochBlocks : Int) ≠ 0
    · rw [if_pos h1] at hrun ⊢
      simp only [Except.ok.injEq] at hrun
      rw [← hrun]
      rfl
    · rw [if_neg h1] at hrun ⊢
      by_cases h2 : CollectibleBudgets st.params.Budgets blockTime = []
      · rw [if_pos h2] at hrun
        simp only [Except.ok.injEq] at hrun
        rw [← hrun, h2]
        rfl
      · rw [if_neg h2] at hrun
        exact collectSources_counters _ st st2 hrun n

theorem groupDeliveries_mem (bal : Coins) (l : List Budget) (e : String × Coins)
    (he : e ∈ groupDeliveries bal l) :
    e.2 ≠ [] ∧ ∃ b ∈ l, b.Name = e.1 ∧ e.2 = shareOf bal b.Rate := by
  induction l with
  | nil => simp [groupDeliveries] at he
  | cons b rest ih =>
    simp only [groupDeliveries] at he
    by_cases hs : shareOf bal b.Rate = []
    · rw [if_pos hs] at he
      obtain ⟨h1, c, hc, h2⟩ := ih he
      exact ⟨h1, c, List.mem_cons_of_mem _ hc, h2⟩
    · rw [if_neg hs] at he
      rcases List.mem_cons.1 he with h | h
      · subst h
        exact ⟨hs, b, List.mem_cons_self _ _, rfl, rfl⟩
      · obtain ⟨h1, c, hc, h2⟩ := ih h
        exact ⟨h1, c, List.mem_cons_of_mem _ hc, h2⟩

theorem sourcesDeliveries_mem (gs : List (String × BudgetsBySource)) (st : State)
    (e : String × Coins) (he : e ∈ sourcesDeliveries gs st) :
    e.2 ≠ [] ∧ ∃ p ∈ gs, ∃ b ∈ p.2.Budgets, b.Name = e.1 ∧
      ∃ bal, e.2 = shareOf bal b.Rate := by
  induction gs generalizing st with
  | nil => simp [sourcesDeliveries] at he
  | cons p rest ih =>
    obtain ⟨s, g⟩ := p
    simp only [sourcesDeliveries, List.mem_append] at he
    rcases he with h | h
    · obtain ⟨h1, b, hb, h2, h3⟩ := groupDeliveries_mem _ _ _ h
      exact ⟨h1, (s, g), List.mem_cons_self _ _, b, hb, h2, _, h3⟩
    · cases hg : collectGroup (st.bank.GetAllBalances s) s g.Budgets st with
      | error err =>
        rw [hg] at h
        simp at h
      | ok st1 =>
        rw [hg] at h
        obtain ⟨h1, q, hq, h2⟩ := ih st1 h
        exact ⟨h1, q, List.mem_cons_of_mem _ hq, h2⟩

theorem deliveries_mem (st : State) (blockTime blockHeight : Int) (e : String × Coins)
    (he : e ∈ deliveries st blockTime blockHeight) :
    e.2 ≠ [] ∧ ∃ b ∈ CollectibleBudgets st.params.Budgets blockTime, b.Name = e.1 ∧
      ∃ bal, e.2 = shareOf bal b.Rate := by
  unfold deliveries at he
  split_ifs at he with h0 h1
  · simp at he
  · simp at he
  · obtain ⟨h1, p, hp, b, hb, h2⟩ := sourcesDeliveries_mem _ _ _ he
    rw [((mem_GetBudgetsBySourceMap _ p).1 hp).2] at hb
    exact ⟨h1, b, ((mem_budgetsOfSource _ _ _).1 hb).1, h2⟩

theorem deliveredUnder_eq_nil (n : String) (log : List (String × Coins))
    (h : ∀ e ∈ log, e.1 ≠ n) : deliveredUnder n log = [] := by
  unfold deliveredUnder
  rw [List.map_eq_nil_iff, List.filter_eq_nil_iff]
  intro e he
  simpa using h e he

theorem sendCoins_eq_ok (bank bank2 : Bank) (fromAddr toAddr : String) (amt : Coins)
    (h : bank.SendCoins fromAddr toAddr amt = Except.ok bank2) :
    bank2 = (bank.debit fromAddr amt).credit toAddr amt := by
  unfold Bank.SendCoins at h
  split_ifs at h
  simp only [Except.ok.injEq] at h
  exact h.symm

theorem collectGroup_untouched (bal : Coins) (s : String) (budgets : List Budget)
    (st st1 : State) (hrun : collectGroup bal s budgets st = Except.ok st1) (q : String)
    (hq : q ≠ s) (hqd : ∀ b ∈ budgets, b.DestinationAddress ≠ q) :
    st1.bank.denoms = st.bank.denoms ∧ ∀ d, st1.bank.balance q d = st.bank.balance q d := by
  induction budgets generalizing st with
  | nil =>
    simp only [collectGroup, Except.ok.injEq] at hrun
    rw [← hrun]
    exact ⟨rfl, fun _ => rfl⟩
  | cons b rest ih =>
    have hrest : ∀ c ∈ rest, c.DestinationAddress ≠ q :=
      fun c hc => hqd c (List.mem_cons_of_mem _ hc)
    have hb := hqd b (List.mem_cons_self _ _)
    by_cases he : shareOf bal b.Rate = []
    · rw [collectGroup_cons_empty bal s b rest st he] at hrun
      exact ih st hrun hrest
    · simp only [collectGroup, if_neg he] at hrun
      cases hsend : st.bank.SendCoins s b.DestinationAddress (shareOf bal b.Rate) with
      | error err =>
        rw [hsend] at hrun
        simp at hrun
      | ok bank =>
        rw [hsend] at hrun
        simp only [] at hrun
        obtain ⟨h1, h2⟩ := ih _ hrun hrest
        have hbank := sendCoins_eq_ok _ _ _ _ _ hsend
        subst hbank
        refine ⟨h1, fun d => ?_⟩
        rw [h2 d]
        simp only [State.AddTotalCollectedCoins, State.SetTotalCollectedCoins, Bank.credit,
          Bank.debit]
        rw [if_neg (fun e => hb e.symm), if_neg hq]

theorem sourcesDeliveries_prestate (gs : List (String × BudgetsBySource)) (st st0 st2 : State)
    (hrun : collectSources gs st = Except.ok st2)
    (hkeys : (gs.map Prod.fst).Nodup)
    (hsep : ∀ p ∈ gs, ∀ b ∈ p.2.Budgets, b.DestinationAddress ∉ gs.map Prod.fst)
    (hsnap : ∀ p ∈ gs, st.bank.GetAllBalances p.1 = st0.bank.GetAllBalances p.1) :
    sourcesDeliveries gs st = gs.foldr (fun p acc =>
      groupDeliveries (st0.bank.GetAllBalances p.1) p.2.Budgets ++ acc) [] := by
  induction gs generalizing st with
  | nil => rfl
  | cons p rest ih =>
    obtain ⟨s, g⟩ := p
    simp only [List.map_cons, List.nodup_cons] at hkeys
    simp only [collectSources] at hrun
    cases hg : collectGroup (st.bank.GetAllBalances s) s g.Budgets st with
    | error err =>
      rw [hg] at hrun
      simp at hrun
    | ok st1 =>
      rw [hg] at hrun
      simp only [] at hrun
      have hsg := hsep (s, g) (List.mem_cons_self _ _)
      have hnext : ∀ q ∈ rest, st1.bank.GetAllBalances q.1 = st0.bank.GetAllBalances q.1 := by
        intro q hq
        have hq1 : q.1 ∈ rest.map Prod.fst := List.mem_map.2 ⟨q, hq, rfl⟩
        have hqs : q.1 ≠ s := fun e => hkeys.1 (by rw [← e]; exact hq1)
        obtain ⟨h1, h2⟩ := collectGroup_untouched _ _ _ _ _ hg q.1 hqs
          (fun b hb e => hsg b hb (by rw [e]; exact List.mem_cons_of_mem _ hq1))
        rw [getAllBalances_congr _ _ _ h1 h2]
        exact hsnap q (List.mem_cons_of_mem _ hq)
      have ih2 := ih st1 hrun hkeys.2
        (fun q hq b hb hmem => hsep q (List.mem_cons_of_mem _ hq) b hb
          (List.mem_cons_of_mem _ hmem)) hnext
      simp only [sourcesDeliveries, hg, List.foldr_cons]
      rw [ih2, hsnap (s, g) (List.mem_cons_self _ _)]

theorem groupDeliveries_other_name (bal : Coins) (l : List Budget) (n : String)
    (h : ∀ c ∈ l, c.Name ≠ n) : deliveredUnder n (groupDeliveries bal l) = [] := by
  apply deliveredUnder_eq_nil
  intro e he
  obtain ⟨_, c, hc, hcn, _⟩ := groupDeliveries_mem bal l e he
  rw [← hcn]
  exact h c hc

theorem groupDeliveries_own_name (bal : Coins) (l : List Budget) (b : Budget)
    (hb : b ∈ l) (hnd : (l.map (fun c => c.Name)).Nodup) :
    deliveredUnder b.Name (groupDeliveries bal l) =
      if shareOf bal b.Rate = [] then [] else [shareOf bal b.Rate] := by
  induction l with
  | nil => simp at hb
  | cons c rest ih =>
    simp only [List.map_cons, List.nodup_cons, List.mem_map, not_exists, not_and] at hnd
    rcases List.mem_cons.1 hb with h | h
    · subst h
      have hrest : deliveredUnder b.Name (groupDeliveries bal rest) = [] :=
        groupDeliveries_other_name bal rest b.Name (fun c hc => hnd.1 c hc)
      simp only [groupDeliveries]
      by_cases hs : shareOf bal b.Rate = []
      · rw [if_pos hs, if_pos hs]
        exact hrest
      · rw [if_neg hs, if_neg hs, deliveredUnder_cons, if_pos rfl, hrest]
    · have hcb : c.Name ≠ b.Name := fun e => hnd.1 b h e.symm
      simp only [groupDeliveries]
      by_cases hs : shareOf bal c.Rate = []
      · rw [if_pos hs]
        exact ih h hnd.2
      · rw [if_neg hs, deliveredUnder_cons, if_neg hcb]
        exact ih h hnd.2

theorem keys_deliveries_own_name (keys : List String) (A : List Budget) (b : Budget)
    (snap : String → Coins) (hb : b ∈ A) (hnd : (A.map (fun c => c.Name)).Nodup)
    (hk : keys.Nodup) :
    deliveredUnder b.Name (keys.foldr (fun s acc =>
      groupDeliveries (snap s) (budgetsOfSource s A) ++ acc) []) =
    if b.SourceAddress ∈ keys then
      (if shareOf (snap b.SourceAddress) b.Rate = [] then []
        else [shareOf (snap b.SourceAddress) b.Rate])
    else [] := by
  induction keys with
  | nil => rfl
  | cons s rest ih =>
    simp only [List.nodup_cons] at hk
    simp only [List.foldr_cons, deliveredUnder_append, ih hk.2]
    by_cases hs : s = b.SourceAddress
    · subst hs
      have hgroup : b ∈ budgetsOfSource b.SourceAddress A :=
        (mem_budgetsOfSource _ _ _).2 ⟨hb, rfl⟩
      have hgnd : ((budgetsOfSource b.SourceAddress A).map (fun c => c.Name)).Nodup :=
        ((List.filter_sublist A).map _).nodup hnd
      rw [groupDeliveries_own_name _ _ b hgroup hgnd, if_neg hk.1,
        if_pos (List.mem_cons_self _ _), List.append_nil]
    · have hother : ∀ c ∈ budgetsOfSource s A, c.Name ≠ b.Name := by
        intro c hc e
        obtain ⟨hcA, hcs⟩ := (mem_budgetsOfSource _ _ _).1 hc
        have hcb : c = b := List.inj_on_of_nodup_map hnd hcA hb e
        rw [hcb] at hcs
        exact hs hcs.symm
      rw [groupDeliveries_other_name _ _ _ hother, List.nil_append]
      by_cases hmem : b.SourceAddress ∈ rest
      · rw [if_pos hmem, if_pos (List.mem_cons_of_mem _ hmem)]
      · rw [if_neg hmem, if_neg]
        intro h
        rcases List.mem_cons.1 h with h2 | h2
        · exact hs h2.symm
        · exact hmem h2

theorem deliveries_prestate (st st2 : State) (blockTime blockHeight : Int)
    (hrun : CollectBudgets st blockTime blockHeight = Except.ok st2)
    (hep : st.params.EpochBlocks ≠ 0)
    (hcad : blockHeight % (st.params.EpochBlocks : Int) = 0)
    (hnd : ((CollectibleBudgets st.params.Budgets blockTime).map (fun c => c.Name)).Nodup)
    (hsep : ∀ b ∈ CollectibleBudgets st.params.Budgets blockTime,
      ∀ c ∈ CollectibleBudgets st.params.Budgets blockTime,
        b.DestinationAddress ≠ c.SourceAddress)
    (b : Budget) (hb : b ∈ CollectibleBudgets st.params.Budgets blockTime) :
    deliveredUnder b.Name (deliveries st blockTime blockHeight) =
      if shareOf (st.bank.GetAllBalances b.SourceAddress) b.Rate = [] then []
      else [shareOf (st.bank.GetAllBalances b.SourceAddress) b.Rate] := by
  have hA : CollectibleBudgets st.params.Budgets blockTime ≠ [] := by
    intro e
    rw [e] at hb
    simp at hb
  unfold CollectBudgets at hrun
  rw [if_neg hep, if_neg (by simpa using hcad), if_neg hA] at hrun
  unfold deliveries
  rw [if_neg hep, if_neg (by simpa using hcad)]
  have hkeys : ((GetBudgetsBySourceMap
      (CollectibleBudgets st.params.Budgets blockTime)).map Prod.fst).Nodup := by
    rw [getBudgetsBySourceMap_keys]
    exact sourceKeys_nodup _
  have hsep2 : ∀ p ∈ GetBudgetsBySourceMap (CollectibleBudgets st.params.Budgets blockTime),
      ∀ c ∈ p.2.Budgets, c.DestinationAddress ∉
        (GetBudgetsBySourceMap (CollectibleBudgets st.params.Budgets blockTime)).map
          Prod.fst := by
    intro p hp c hc hmem
    rw [getBudgetsBySourceMap_keys, mem_sourceKeys] at hmem
    obtain ⟨e, he, hes⟩ := hmem
    rw [((mem_GetBudgetsBySourceMap _ p).1 hp).2] at hc
    exact hsep c ((mem_budgetsOfSource _ _ _).1 hc).1 e he hes.symm
  rw [sourcesDeliveries_prestate _ st st st2 hrun hkeys hsep2 (fun _ _ => rfl)]
  unfold GetBudgetsBySourceMap
  rw [List.foldr_map]
  have := keys_deliveries_own_name (sourceKeys (CollectibleBudgets st.params.Budgets blockTime))
    (CollectibleBudgets st.params.Budgets blockTime) b (fun s => st.bank.GetAllBalances s)
    hb hnd (sourceKeys_nodup _)
  rw [if_pos ((mem_sourceKeys _ _).2 ⟨b, hb, rfl⟩)] at this
  exact this

theorem addCoin_of_not_mem (a : Coins) (c : String × Nat) (h : c.1 ∉ a.map Prod.fst) :
    addCoin a c = a ++ [c] := by
  induction a with
  | nil => rfl
  | cons e rest ih =>
    obtain ⟨d0, n⟩ := e
    simp only [List.map_cons, List.mem_cons, not_or] at h
    simp only [addCoin]
    rw [if_neg (fun e => h.1 e.symm), ih h.2]
    rfl

theorem addCoins_of_disjoint (a s : Coins) (hs : (s.map Prod.fst).Nodup)
    (hdis : ∀ c ∈ s, c.1 ∉ a.map Prod.fst) : addCoins a s = a ++ s := by
  unfold addCoins
  induction s generalizing a with
  | nil => simp
  | cons c rest ih =>
    simp only [List.map_cons, List.nodup_cons] at hs
    simp only [List.foldl_cons]
    rw [addCoin_of_not_mem a c (hdis c (List.mem_cons_self _ _)), ih (a ++ [c]) hs.2]
    · simp
    · intro e he hmem
      simp only [List.map_append, List.map_cons, List.map_nil, List.mem_append,
        List.mem_singleton] at hmem
      rcases hmem with h | h
      · exact hdis e (List.mem_cons_of_mem _ he) h
      · exact hs.1 (by rw [← h]; exact List.mem_map.2 ⟨e, he, rfl⟩)

theorem filterMap_fst_sublist {α : Type} (l : List α) (f : α → Option (String × Nat))
    (k : α → String) (hf : ∀ x y, f x = some y → y.1 = k x) :
    ((l.filterMap f).map Prod.fst).Sublist (l.map k) := by
  induction l with
  | nil => exact List.Sublist.slnil
  | cons x rest ih =>
    cases hfx : f x with
    | none =>
      rw [List.filterMap_cons_none hfx, List.map_cons]
      exact List.Sublist.cons _ ih
    | some y =>
      rw [List.filterMap_cons_some hfx, List.map_cons, List.map_cons, hf x y hfx]
      exact List.Sublist.cons₂ _ ih

theorem share_snapshot_keys_nodup (bank : Bank) (s : String) (r : Int)
    (hden : bank.denoms.Nodup) :
    ((shareOf (bank.GetAllBalances s) r).map Prod.fst).Nodup := by
  have h1 : ((bank.GetAllBalances s).map Prod.fst).Sublist (bank.denoms.map id) := by
    unfold Bank.GetAllBalances
    apply filterMap_fst_sublist
    intro d y hy
    by_cases hz : bank.balance s d = 0
    · simp [hz] at hy
    · simp only [hz, if_false, Option.some.injEq] at hy
      rw [← hy]
      rfl
  have h2 : ((shareOf (bank.GetAllBalances s) r).map Prod.fst).Sublist
      ((bank.GetAllBalances s).map Prod.fst) := by
    rw [shareOf_eq]
    apply filterMap_fst_sublist
    intro c y hy
    by_cases hz : shareAmount c.2 r = 0
    · simp [hz] at hy
    · simp only [hz, if_false, Option.some.injEq] at hy
      rw [← hy]
  rw [List.map_id] at h1
  exact (h2.trans h1).nodup hden

theorem sourcesDeliveries_single (s : String) (g : BudgetsBySource) (st : State) :
    sourcesDeliveries [(s, g)] st = groupDeliveries (st.bank.GetAllBalances s) g.Budgets := by
  simp only [sourcesDeliveries]
  cases collectGroup (st.bank.GetAllBalances s) s g.Budgets st <;> simp [sourcesDeliveries]

theorem deliveries_single (st : State) (blockTime blockHeight : Int) (b : Budget)
    (hone : st.params.Budgets = [b])
    (hact : b.StartTime ≤ blockTime ∧ blockTime < b.EndTime)
    (hep : st.params.EpochBlocks ≠ 0)
    (hcad : blockHeight % (st.params.EpochBlocks : Int) = 0) :
    deliveredUnder b.Name (deliveries st blockTime blockHeight) =
      if shareOf (st.bank.GetAllBalances b.SourceAddress) b.Rate = [] then []
      else [shareOf (st.bank.GetAllBalances b.SourceAddress) b.Rate] := by
  have hA : CollectibleBudgets st.params.Budgets blockTime = [b] := by
    rw [collectibleBudgets_eq_filter, hone]
    simp [hact]
  have hmap : GetBudgetsBySourceMap [b] =
      [(b.SourceAddress, BudgetsBySource.mk [b] (sumRates [b]))] := by
    simp [GetBudgetsBySourceMap, sourceKeys, budgetsOfSource]
  unfold deliveries
  rw [if_neg hep, if_neg (by simpa using hcad), hA, hmap, sourcesDeliveries_single]
  exact groupDeliveries_own_name _ [b] b (List.mem_cons_self _ _) (by simp)

theorem collectBudgets_ok_of_accepted (wf : String → Bool) (seed : List Nat) (st : State)
    (blockTime blockHeight : Int)
    (hacc : ValidateBudgets wf seed (Value.budgets st.params.Budgets) = none) :
    ∃ st2, CollectBudgets st blockTime blockHeight = Except.ok st2 := by
  unfold CollectBudgets
  by_cases h0 : st.params.EpochBlocks = 0
  · exact ⟨st, by rw [if_pos h0]⟩
  · rw [if_neg h0]
    by_cases h1 : blockHeight % (st.params.EpochBlocks : Int) ≠ 0
    · exact ⟨st, by rw [if_pos h1]⟩
    · rw [if_neg h1]
      by_cases h2 : CollectibleBudgets st.params.Budgets blockTime = []
      · exact ⟨st, by rw [if_pos h2]⟩
      · rw [if_neg h2]
        obtain ⟨hself, hrate⟩ := accepted_groups wf seed st.params.Budgets blockTime hacc
        obtain ⟨st2, h3, _⟩ := collectSources_ok _ st hself hrate
        exact ⟨st2, h3⟩

/-! ## Claim on the counters under collection -/

/-- C11: for every state and block, when `CollectBudgets` returns a state: the
counter of every name is its value before plus the shares delivered under that
name in the block, in order (an absent counter read as empty); every delivery is
the non-empty share of a budget active at the block time; no counter decreases
in any denomination; the counter of a name that no active budget bears is
unchanged.  On a collection block on which the names of the active budgets are
distinct and no active budget pays into the source of an active one, the share
delivered under an active budget is the share of the balance its source held
before the block.  Starting from an absent counter, one collection of a single
active budget leaves the counter equal to the truncated rate fraction of the
balance of the source. -/
theorem collectBudgets_counters (st st2 : State) (blockTime blockHeight : Int)
    (hrun : CollectBudgets st blockTime blockHeight = Except.ok st2) :
    (∀ n, st2.totalCollected n = addShares (st.totalCollected n)
      (deliveredUnder n (deliveries st blockTime blockHeight))) ∧
    (∀ e ∈ deliveries st blockTime blockHeight,
      e.2 ≠ [] ∧ ∃ b ∈ CollectibleBudgets st.params.Budgets blockTime, b.Name = e.1 ∧
        ∃ bal, e.2 = shareOf bal b.Rate) ∧
    (∀ n d, amountOf ((st.totalCollected n).getD []) d ≤
      amountOf ((st2.totalCollected n).getD []) d) ∧
    (∀ n, (∀ b ∈ CollectibleBudgets st.params.Budgets blockTime, b.Name ≠ n) →
      st2.totalCollected n = st.totalCollected n) ∧
    (st.params.EpochBlocks ≠ 0 → blockHeight % (st.params.EpochBlocks : Int) = 0 →
      ((CollectibleBudgets st.params.Budgets blockTime).map (fun c => c.Name)).Nodup →
      (∀ b ∈ CollectibleBudgets st.params.Budgets blockTime,
        ∀ c ∈ CollectibleBudgets st.params.Budgets blockTime,
          b.DestinationAddress ≠ c.SourceAddress) →
      ∀ b ∈ CollectibleBudgets st.params.Budgets blockTime,
        st2.totalCollected b.Name =
          if shareOf (st.bank.GetAllBalances b.SourceAddress) b.Rate = [] then
            st.totalCollected b.Name
          else some (addCoins ((st.totalCollected b.Name).getD [])
            (shareOf (st.bank.GetAllBalances b.SourceAddress) b.Rate))) ∧
    (∀ b, st.params.Budgets = [b] → (b.StartTime ≤ blockTime ∧ blockTime < b.EndTime) →
      st.params.EpochBlocks ≠ 0 → blockHeight % (st.params.EpochBlocks : Int) = 0 →
      st.totalCollected b.Name = none → st.bank.denoms.Nodup →
      (st2.totalCollected b.Name).getD [] =
        shareOf (st.bank.GetAllBalances b.SourceAddress) b.Rate) := by
  have hexact := counters_after_run st st2 blockTime blockHeight hrun
  refine ⟨hexact, fun e he => deliveries_mem st blockTime blockHeight e he, ?_, ?_, ?_, ?_⟩
  · intro n d
    rw [hexact n]
    exact addShares_ge _ _ d
  · intro n hn
    rw [hexact n, deliveredUnder_eq_nil]
    · rfl
    · intro e he
      obtain ⟨_, b, hb, hbn, _⟩ := deliveries_mem st blockTime blockHeight e he
      rw [← hbn]
      exact hn b hb
  · intro hep hcad hnd hsep b hb
    rw [hexact b.Name, deliveries_prestate st st2 blockTime blockHeight hrun hep hcad hnd hsep b hb]
    by_cases hs : shareOf (st.bank.GetAllBalances b.SourceAddress) b.Rate = []
    · rw [if_pos hs, if_pos hs]
      rfl
    · rw [if_neg hs, if_neg hs]
      rfl
  · intro b hone hact hep hcad habs hden
    rw [hexact b.Name, deliveries_single st blockTime blockHeight b hone hact hep hcad, habs]
    by_cases hs : shareOf (st.bank.GetAllBalances b.SourceAddress) b.Rate = []
    · rw [if_pos hs, hs]
      rfl
    · rw [if_neg hs]
      simp only [addShares, List.foldl_cons, List.foldl_nil, Option.getD_none, Option.getD_some]
      rw [addCoins_of_disjoint [] _ (share_snapshot_keys_nodup st.bank _ _ hden) (by simp)]
      rfl

/-- C11 witness: the keeper test `TestTotalCollectedCoins`: a single budget of 5%
whose source holds `10^9` of each asset, counter absent, block time
2021-08-31T00:00:00Z: the collection succeeds and leaves the counter of `budget1`
at `5 · 10^7` of each asset, the truncated 5% of the balance. -/
theorem collectBudgets_counters_witness :
    fivePercentState.totalCollected "budget1" = none ∧
    counterAfter (CollectBudgets fivePercentState 1630368000 1) "budget1" =
      some (some [("denom1", 50000000), ("denom2", 50000000), ("denom3", 50000000),
        ("stake", 50000000)]) ∧
    shareOf (fivePercentState.bank.GetAllBalances "source0") 50000000000000000 =
      [("denom1", 50000000), ("denom2", 50000000), ("denom3", 50000000),
        ("stake", 50000000)] ∧
    ∃ st2, CollectBudgets fivePercentState 1630368000 1 = Except.ok st2 ∧
      (∀ n, st2.totalCollected n = addShares (fivePercentState.totalCollected n)
        (deliveredUnder n (deliveries fivePercentState 1630368000 1))) ∧
      (∀ n d, amountOf ((fivePercentState.totalCollected n).getD []) d ≤
        amountOf ((st2.totalCollected n).getD []) d) ∧
      (∀ n, (∀ b ∈ CollectibleBudgets fivePercentState.params.Budgets 1630368000, b.Name ≠ n) →
        st2.totalCollected n = fivePercentState.totalCollected n) := by
  refine ⟨by decide, by decide, by decide, ?_⟩
  obtain ⟨st2, h⟩ := collectBudgets_ok_of_accepted anyAddress [] fivePercentState 1630368000 1
    (by decide)
  have hall := collectBudgets_counters fivePercentState st2 1630368000 1 h
  exact ⟨st2, h, hall.1, hall.2.2.1, hall.2.2.2.1⟩

/-! ## Claim on the default parameters -/

/-- C21: `DefaultParams()` has an empty budget list and `EpochBlocks = 1` (a value
of a `uint32` that `ValidateEpochBlocks` accepts), and `DefaultParams().Validate()`
returns nil, whatever the address check and the visiting order of the source map.
With that `EpochBlocks` collection is enabled on every block: the collector is not
disabled and every height is on the cadence, so in any state whose `EpochBlocks`
is the default neither gate of `CollectBudgets` stops a block. -/
theorem defaultParams_valid (wf : String → Bool) (seed : List Nat) :
    DefaultParams.Budgets = [] ∧
    DefaultParams.EpochBlocks = 1 ∧
    DefaultParams.EpochBlocks < 2 ^ 32 ∧
    ValidateEpochBlocks (Value.uint32 DefaultParams.EpochBlocks) = none ∧
    DefaultParams.Validate wf seed = none ∧
    ValidateBudgets wf seed (Value.budgets DefaultParams.Budgets) = none ∧
    (∀ blockHeight : Int, DefaultParams.EpochBlocks ≠ 0 ∧
      blockHeight % (DefaultParams.EpochBlocks : Int) = 0) ∧
    (∀ (st : State) (blockTime blockHeight : Int),
      st.params.EpochBlocks = DefaultParams.EpochBlocks →
      CollectBudgets st blockTime blockHeight =
        if CollectibleBudgets st.params.Budgets blockTime = [] then Except.ok st
        else collectSources
          (GetBudgetsBySourceMap (CollectibleBudgets st.params.Budgets blockTime)) st) := by
  have hV : ValidateBudgets wf seed (Value.budgets DefaultParams.Budgets) = none := by
    rw [validateBudgets_none_iff]
    refine ⟨by simp [DefaultParams], ?_, ?_⟩
    · intro b hb
      simp [DefaultParams] at hb
    · intro b hb
      simp [DefaultParams] at hb
  refine ⟨rfl, rfl, by decide, rfl, ?_, hV, ?_, ?_⟩
  · unfold Params.Validate
    rw [hV]
  · intro blockHeight
    refine ⟨by decide, ?_⟩
    simp [DefaultParams, DefaultEpochBlocks]
  · intro st blockTime blockHeight he
    have h1 : st.params.EpochBlocks = 1 := he
    unfold CollectBudgets
    rw [if_neg (by omega), if_neg (by rw [h1]; simp)]

end BudgetMod
